import Mathlib

/-!
# Verification of the modular_api template-binding and workflow engine

This file is a shallow embedding, in Lean 4, of the core of the
`modular_api` Go library: the placeholder substitution of
`pkg/modularapi/template/processor.go`, the request preparation of
`pkg/modularapi/service.go`, and the workflow registry / executor of the
`workflow` package (validation, condition evaluation, expression
evaluation, loop steps, error strategies, result collection).

Go strings are modelled as `List Char` (`GoStr`); Go's dynamic
`interface{}` values, as decoded from JSON, are modelled by the inductive
type `GoVal`; Go maps are modelled as association lists with
first-match lookup, where overriding insertion conses at the front.
Go's standard library string functions (`strings.Split`,
`strings.ReplaceAll`, `strings.Contains`, prefix/suffix trimming) are
re-implemented on `List Char` with the same semantics.  Numeric values
are modelled by `Int`: no claim under consideration depends on
floating-point behaviour.  Concurrency in `executeParallelSteps`
collapses to sequential execution: the with-loop executor variant runs
every group member through a singleton fan-out, so for the executions
modelled here the Go code performs the calls one at a time as well.
The HTTP transport is abstracted as an oracle function passed to the
executor, and `encoding/json` round-tripping as an oracle `rt`.
-/

set_option autoImplicit false

namespace ModularApi

/-- Go strings, modelled as lists of characters. -/
abbrev GoStr := List Char

/-- `strings.Split(s, sep)` for a one-character separator.  Always returns
a non-empty list; splitting the empty string yields `[[]]`. -/
def splitOnChar (c : Char) : GoStr → List GoStr
  | [] => [[]]
  | x :: xs =>
    match splitOnChar c xs with
    | [] => [[x]]
    | s :: rest => if x = c then [] :: s :: rest else (x :: s) :: rest

/-- `strings.Join(parts, sep)` for a one-character separator. -/
def joinSep (c : Char) : List GoStr → GoStr
  | [] => []
  | [s] => s
  | s :: s2 :: rest => s ++ c :: joinSep c (s2 :: rest)

/-- `strings.HasPrefix`. -/
def hasPrefixL (pat s : GoStr) : Bool := pat.isPrefixOf s

/-- `strings.HasSuffix`. -/
def hasSuffixL (pat s : GoStr) : Bool := pat.isSuffixOf s

/-- `strings.TrimPrefix`: drops `pat` from the front when present. -/
def trimPrefixL (pat s : GoStr) : GoStr :=
  if hasPrefixL pat s then s.drop pat.length else s

/-- `strings.TrimSuffix`: drops `pat` from the end when present. -/
def trimSuffixL (pat s : GoStr) : GoStr :=
  if hasSuffixL pat s then s.take (s.length - pat.length) else s

/-- `strings.Contains(s, pat)`. -/
def containsSubL (pat : GoStr) : GoStr → Bool
  | [] => pat.isEmpty
  | c :: rest => pat.isPrefixOf (c :: rest) || containsSubL pat rest

/-- One step of `strings.ReplaceAll`, with explicit fuel so that the
definition is structurally recursive (the fuel is always instantiated with
the length of the subject string, which suffices for non-empty patterns). -/
def replaceAllAux (pat rep : GoStr) : Nat → GoStr → GoStr
  | 0, s => s
  | _ + 1, [] => []
  | fuel + 1, c :: rest =>
    if pat.isPrefixOf (c :: rest) then
      rep ++ replaceAllAux pat rep fuel ((c :: rest).drop pat.length)
    else
      c :: replaceAllAux pat rep fuel rest

/-- `strings.ReplaceAll(s, pat, rep)`: leftmost, non-overlapping
replacement of every occurrence.  (Go's insertion semantics for an empty
pattern is not modelled; no call site uses an empty pattern.) -/
def replaceAllL (pat rep s : GoStr) : GoStr :=
  if pat.isEmpty then s else replaceAllAux pat rep s.length s

/-- `strings.Replace(s, pat, rep, 1)`: replace only the first occurrence. -/
def replaceFirstL (pat rep : GoStr) : GoStr → GoStr
  | [] => []
  | c :: rest =>
    if pat.isPrefixOf (c :: rest) then rep ++ (c :: rest).drop pat.length
    else c :: replaceFirstL pat rep rest

/-- Decoded JSON / `interface{}` values flowing through the library. -/
inductive GoVal where
  | vnil : GoVal
  | vbool : Bool → GoVal
  | vint : Int → GoVal
  | vstr : GoStr → GoVal
  | varr : List GoVal → GoVal
  | vobj : List (GoStr × GoVal) → GoVal
  deriving Inhabited

mutual
/-- Structural equality of dynamic values (`reflect.DeepEqual`). -/
def GoVal.beq : GoVal → GoVal → Bool
  | .vnil, .vnil => true
  | .vbool a, .vbool b => a == b
  | .vint a, .vint b => a == b
  | .vstr a, .vstr b => a == b
  | .varr a, .varr b => GoVal.beqList a b
  | .vobj a, .vobj b => GoVal.beqPairs a b
  | _, _ => false

def GoVal.beqList : List GoVal → List GoVal → Bool
  | [], [] => true
  | a :: as, b :: bs => GoVal.beq a b && GoVal.beqList as bs
  | _, _ => false

def GoVal.beqPairs : List (GoStr × GoVal) → List (GoStr × GoVal) → Bool
  | [], [] => true
  | (k, a) :: as, (l, b) :: bs => k == l && GoVal.beq a b && GoVal.beqPairs as bs
  | _, _ => false
end

instance : BEq GoVal := ⟨GoVal.beq⟩

/-- Association lists standing in for Go's `map[string]interface{}`. -/
abbrev AList := List (GoStr × GoVal)

/-- Generic first-match lookup in a string-keyed association list. -/
def lookupL {α : Type} : List (GoStr × α) → GoStr → Option α
  | [], _ => none
  | (k2, v) :: rest, k => if k2 = k then some v else lookupL rest k

/-- Map lookup: first match wins. -/
def lookupA (m : AList) (k : GoStr) : Option GoVal := lookupL m k

/-- Map update `m[k] = v`.  New bindings shadow old ones, and `lookupA`
takes the first match, so consing at the front is Go's overriding write. -/
def setKey (m : AList) (k : GoStr) (v : GoVal) : AList := (k, v) :: m

/-- Render a `Nat` in decimal. -/
def natDigits (n : Nat) : GoStr :=
  (Nat.toDigits 10 n)

mutual
/-- `fmt.Sprintf("%v", value)`: the default Go string form of a dynamic
value.  (Maps render in insertion order rather than Go's sorted key
order; no claim depends on the rendering of maps or arrays.) -/
def goFormat : GoVal → GoStr
  | .vnil => "<nil>".data
  | .vbool true => "true".data
  | .vbool false => "false".data
  | .vint n => if n < 0 then '-' :: natDigits n.natAbs else natDigits n.natAbs
  | .vstr s => s
  | .varr xs => '[' :: goFormatList xs ++ [']']
  | .vobj kvs => "map[".data ++ goFormatPairs kvs ++ [']']

/-- Space-separated rendering of array elements. -/
def goFormatList : List GoVal → GoStr
  | [] => []
  | [x] => goFormat x
  | x :: y :: rest => goFormat x ++ ' ' :: goFormatList (y :: rest)

/-- Space-separated rendering of `key:value` map entries. -/
def goFormatPairs : List (GoStr × GoVal) → GoStr
  | [] => []
  | [(k, v)] => k ++ ':' :: goFormat v
  | (k, v) :: e :: rest => k ++ ':' :: goFormat v ++ ' ' :: goFormatPairs (e :: rest)
end

/-- The opening placeholder delimiter. -/
def phOpen : GoStr := ['{', '{']

/-- The closing placeholder delimiter. -/
def phClose : GoStr := ['}', '}']

/-- The string of a whole-segment / whole-string placeholder for `n`:
the endpoint segment or scalar reading `{{n}}`, or `{{n?}}` when `opt`. -/
def phSeg (n : GoStr) (opt : Bool) : GoStr :=
  phOpen ++ n ++ (if opt then '?' :: phClose else phClose)

mutual
/-- `template.ProcessTemplateValue` from `template/processor.go`.  Returns
`none` exactly when the Go function returns `valid = false` (the node is
dropped).  Go's reflective normalization of `[]string` / `[]int` /... into
`[]interface{}` collapses here because `GoVal.varr` is already generic. -/
def processTemplateValue (params : AList) (optionals : List GoStr) : GoVal → Option GoVal
  | .vstr s =>
    if hasPrefixL phOpen s && hasSuffixL phClose s then
      let paramWithBraces := trimPrefixL phOpen (trimSuffixL phClose s)
      let isOptional := hasSuffixL ['?'] paramWithBraces
      let paramName := if isOptional then trimSuffixL ['?'] paramWithBraces else paramWithBraces
      match lookupA params paramName with
      | some pv =>
        if (pv == .vstr [] || pv == .vnil) && (isOptional || optionals.contains paramName) then
          none
        else some pv
      | none => none
    else some (.vstr s)
  | .vobj fields =>
    match processTemplateFields params optionals fields with
    | [] => none
    | l => some (.vobj l)
  | .varr xs =>
    match processTemplateItems params optionals xs with
    | [] => none
    | l => some (.varr l)
  | v => some v

/-- The map case of `ProcessTemplateValue`: keys whose processed child is
invalid are omitted. -/
def processTemplateFields (params : AList) (optionals : List GoStr) :
    List (GoStr × GoVal) → List (GoStr × GoVal)
  | [] => []
  | (k, v) :: rest =>
    match processTemplateValue params optionals v with
    | some pv => (k, pv) :: processTemplateFields params optionals rest
    | none => processTemplateFields params optionals rest

/-- The slice case of `ProcessTemplateValue`: invalid elements are omitted. -/
def processTemplateItems (params : AList) (optionals : List GoStr) :
    List GoVal → List GoVal
  | [] => []
  | v :: rest =>
    match processTemplateValue params optionals v with
    | some pv => pv :: processTemplateItems params optionals rest
    | none => processTemplateItems params optionals rest
end

/-- `template.extractPathParams`: the names of the whole-segment
placeholders of an endpoint, in order, with a trailing `?` stripped. -/
def extractPathParams (endpoint : GoStr) : List GoStr :=
  (splitOnChar '/' endpoint).filterMap fun part =>
    if hasPrefixL phOpen part && hasSuffixL phClose part then
      some (trimSuffixL ['?'] (trimPrefixL phOpen (trimSuffixL phClose part)))
    else none

/-- Parse a whole-segment placeholder, giving the bare name and the
optional flag.  Mirrors the trimming performed by the Go code. -/
def parsePh (part : GoStr) : Option (GoStr × Bool) :=
  if hasPrefixL phOpen part && hasSuffixL phClose part then
    let inner := trimPrefixL phOpen (trimSuffixL phClose part)
    if hasSuffixL ['?'] inner then some (trimSuffixL ['?'] inner, true)
    else some (inner, false)
  else none

/-- A route template (`template.RouteTemplate`).  `pathParams` and
`optionalParams` are the fields derived by `AddTemplate`; headers are not
modelled because no claim under study concerns header composition. -/
structure RouteTemplate where
  method : GoStr
  endpoint : GoStr
  pathParams : List GoStr
  queryParams : List (GoStr × GoVal)
  body : List (GoStr × GoVal)
  optionalParams : List GoStr

/-- Per-service configuration (`config.ApiConfig`). -/
structure ApiConfig where
  apiURL : GoStr
  apiToken : GoStr
  defaultParams : AList

/-- The observable parts of the `*http.Request` built by
`PrepareRequest`: method, path URL (base URL plus the resolved endpoint),
the query key/value pairs before URL-encoding, and the JSON body map. -/
structure PreparedRequest where
  method : GoStr
  url : GoStr
  query : List (GoStr × GoStr)
  body : AList

/-- Insert all entries of `entries` into `base`, later entries overriding. -/
def insertAll (base : AList) (entries : AList) : AList :=
  entries.foldl (fun m kv => setKey m kv.1 kv.2) base

/-- The merged parameter layer of `PrepareRequest`: service default
parameters, then service-level global parameters, then per-call
parameters, later layers overriding earlier ones. -/
def mergeParams (defaults globals call : AList) : AList :=
  insertAll (insertAll (insertAll [] defaults) globals) call

/-- Remove the first list element equal to `pat` (the Go loop that splices
one segment out of the split endpoint and breaks). -/
def removeFirstEq (pat : GoStr) : List GoStr → List GoStr
  | [] => []
  | p :: rest => if p = pat then rest else p :: removeFirstEq pat rest

/-- The path-parameter loop of `PrepareRequest` (service.go lines
126-154): for each name of the template's path list, substitute both the
regular and the optional placeholder when the merged layer has the name;
otherwise drop the optional segment, or skip a derived-optional name, or
fail. -/
def substPathParams (merged : AList) (optionals : List GoStr) :
    List GoStr → GoStr → Except GoStr GoStr
  | [], endpoint => .ok endpoint
  | p :: rest, endpoint =>
    let regular := phSeg p false
    let optionalPh := phSeg p true
    match lookupA merged p with
    | some v =>
      let e1 := replaceAllL regular (goFormat v) endpoint
      let e2 := replaceAllL optionalPh (goFormat v) e1
      substPathParams merged optionals rest e2
    | none =>
      if containsSubL optionalPh endpoint then
        substPathParams merged optionals rest
          (joinSep '/' (removeFirstEq optionalPh (splitOnChar '/' endpoint)))
      else if optionals.contains p then
        substPathParams merged optionals rest endpoint
      else .error ("missing required path parameter: ".data ++ p)

/-- The body loop of `PrepareRequest`: process each template body entry;
an invalid entry is skipped when its template value is a `?`-suffixed
placeholder string or the entry key is in the derived optional set, and
is an error otherwise. -/
def processBodyGo (params : AList) (optionals : List GoStr) :
    List (GoStr × GoVal) → Except GoStr AList
  | [] => .ok []
  | (k, v) :: rest =>
    match processTemplateValue params optionals v with
    | some pv => (processBodyGo params optionals rest).map (fun l => (k, pv) :: l)
    | none =>
      let skip :=
        match v with
        | .vstr s =>
          hasSuffixL ['?'] (trimPrefixL phOpen (trimSuffixL phClose s)) || optionals.contains k
        | _ => false
      if skip then processBodyGo params optionals rest
      else .error ("missing required body parameter for key: ".data ++ k)

/-- The query loop of `PrepareRequest`: like the body loop, but surviving
values are stringified onto the URL query. -/
def processQueryGo (params : AList) (optionals : List GoStr) :
    List (GoStr × GoVal) → Except GoStr (List (GoStr × GoStr))
  | [] => .ok []
  | (k, v) :: rest =>
    match processTemplateValue params optionals v with
    | some pv => (processQueryGo params optionals rest).map (fun l => (k, goFormat pv) :: l)
    | none =>
      let skip :=
        match v with
        | .vstr s =>
          hasSuffixL ['?'] (trimPrefixL phOpen (trimSuffixL phClose s)) || optionals.contains k
        | _ => false
      if skip then processQueryGo params optionals rest
      else .error ("missing required query parameter: ".data ++ k)

/-- `ModularAPIService.PrepareRequest`, given the template and service
configuration already looked up, the service-level global parameters and
the per-call parameters: merge the parameter layers, resolve the endpoint
path, process the body tree and the query parameters. -/
def prepareRequest (tmpl : RouteTemplate) (cfg : ApiConfig)
    (globalParams callParams : AList) : Except GoStr PreparedRequest :=
  let merged := mergeParams cfg.defaultParams globalParams callParams
  match substPathParams merged tmpl.optionalParams tmpl.pathParams tmpl.endpoint with
  | .error e => .error e
  | .ok endpoint =>
    match processBodyGo merged tmpl.optionalParams tmpl.body with
    | .error e => .error e
    | .ok body =>
      match processQueryGo merged tmpl.optionalParams tmpl.queryParams with
      | .error e => .error e
      | .ok query => .ok ⟨tmpl.method, cfg.apiURL ++ endpoint, query, body⟩

/-! ## The workflow package -/

/-- `workflow.ContinueOnError`. -/
def continueOnError : GoStr := "continue".data
/-- `workflow.AbortOnError`. -/
def abortOnError : GoStr := "abort".data
/-- `workflow.RetryOnError`. -/
def retryOnError : GoStr := "retry".data
/-- `workflow.ConditionExists`. -/
def conditionExists : GoStr := "exists".data
/-- `workflow.ConditionEquals`. -/
def conditionEquals : GoStr := "equals".data
/-- `workflow.ConditionContains`. -/
def conditionContains : GoStr := "contains".data
/-- `workflow.ConditionGreaterThan`. -/
def conditionGreaterThan : GoStr := "greater_than".data
/-- `workflow.ConditionLessThan`. -/
def conditionLessThan : GoStr := "less_than".data

/-- `workflow.StepCondition`. -/
structure StepCondition where
  condType : GoStr
  sourceVariable : GoStr
  value : GoVal

/-- `workflow.WorkflowStep` (the with-loop executor variant). -/
structure WorkflowStep where
  id : GoStr
  description : GoStr
  serviceName : GoStr
  actionName : GoStr
  parameters : List (GoStr × GoVal)
  dynamicParams : List (GoStr × GoStr)
  resultMapping : List (GoStr × GoStr)
  condition : Option StepCondition
  parallelWith : List GoStr
  errorHandling : GoStr
  maxRetries : Int
  retryDelayMs : Int
  loopOver : GoStr
  loopAs : GoStr

/-- `workflow.Workflow`. -/
structure Workflow where
  name : GoStr
  description : GoStr
  steps : List WorkflowStep
  vars : AList
  aggregator : List (GoStr × GoStr)

/-- The workflow registry (`WorkflowExecutor.workflows`). -/
abbrev Registry := List (GoStr × Workflow)

/-- `WorkflowExecutor.GetWorkflow`. -/
def getWorkflow (reg : Registry) (name : GoStr) : Option Workflow := lookupL reg name

/-- The validation loop of `RegisterWorkflow`: `stepIDs` accumulates the
ids seen so far; each step's own id is added before its `parallel_with`
list is checked. -/
def validateSteps (wfName : GoStr) (stepIDs : List GoStr) :
    List WorkflowStep → Option GoStr
  | [] => none
  | step :: rest =>
    if step.id = [] then
      some ("step in workflow ".data ++ wfName ++ " must have an ID".data)
    else if stepIDs.contains step.id then
      some ("duplicate step ID ".data ++ step.id ++ " in workflow ".data ++ wfName)
    else
      let ids := step.id :: stepIDs
      if step.serviceName = [] || step.actionName = [] then
        some ("step ".data ++ step.id ++ " in workflow ".data ++ wfName ++
              " must have a service name and action name".data)
      else
        match step.parallelWith.find? (fun pid => !ids.contains pid) with
        | some pid =>
          some ("step ".data ++ step.id ++ " references unknown parallel step ID ".data ++ pid)
        | none => validateSteps wfName ids rest

/-- `WorkflowExecutor.RegisterWorkflow`: validate, and only on success
store the workflow under its name.  The returned registry is the
executor's map after the call, mirroring the Go method's single mutation
point. -/
def registerWorkflow (reg : Registry) (wf : Workflow) : Registry × Option GoStr :=
  if wf.name = [] then (reg, some "workflow must have a name".data)
  else
    match validateSteps wf.name [] wf.steps with
    | some e => (reg, some e)
    | none => ((wf.name, wf) :: reg, none)

/-- `ModularAPIService.AddWorkflowStep`: extend an existing workflow with
the step, or create a fresh single-step workflow, and re-register. -/
def addWorkflowStep (reg : Registry) (workflowName : GoStr) (step : WorkflowStep) :
    Registry × Option GoStr :=
  match getWorkflow reg workflowName with
  | none =>
    registerWorkflow reg
      { name := workflowName, description := [], steps := [step]
        vars := [], aggregator := [] }
  | some wf => registerWorkflow reg { wf with steps := wf.steps ++ [step] }

/-! ### Dotted-path extraction -/

/-- Decimal digits to a number (`strconv.Atoi` on a digit string). -/
def digitsToNat (ds : GoStr) : Nat := ds.foldl (fun n c => n * 10 + (c.toNat - 48)) 0

/-- Recognize a path segment of the shape `name[i]` (the anchored lazy
regex of `extractValue`): the digits must sit between a final `]` and an
immediately preceding `[`. -/
def parseIndexPart (part : GoStr) : Option (GoStr × Nat) :=
  match part.reverse with
  | ']' :: rest =>
    let ds := rest.takeWhile Char.isDigit
    if ds.isEmpty then none
    else
      match rest.drop ds.length with
      | '[' :: frev => some (frev.reverse, digitsToNat ds.reverse)
      | _ => none
  | _ => none

/-- One traversal step of `extractValue`. -/
def extractStep (current : GoVal) (part : GoStr) : Option GoVal :=
  match parseIndexPart part with
  | some (fieldName, index) =>
    match current with
    | .vobj m =>
      match lookupL m fieldName with
      | some (.varr xs) => xs.get? index
      | some _ => none
      | none => none
    | _ => none
  | none =>
    match current with
    | .vobj m => lookupL m part
    | _ => none

/-- Traverse a split dotted path. -/
def extractPath (current : GoVal) : List GoStr → Option GoVal
  | [] => some current
  | p :: ps =>
    match extractStep current p with
    | some c => extractPath c ps
    | none => none

/-- `workflow.extractValue`: dotted-path access (`a.b[2].c`) into a
decoded response map; `none` is the not-found indication. -/
def extractValue (data : AList) (path : GoStr) : Option GoVal :=
  extractPath (.vobj data) (splitOnChar '.' path)

/-! ### Condition evaluation -/

/-- `workflow.toArray`: only arrays convert (strings and maps are not of
reflect-kind Slice/Array). -/
def toArrayGo : GoVal → Option (List GoVal)
  | .varr xs => some xs
  | _ => none

/-- Signed decimal integer parse, the stand-in for `strconv.ParseFloat`
(numeric values are modelled as integers throughout). -/
def parseIntGo (s : GoStr) : Except GoStr Int :=
  match s with
  | '-' :: rest =>
    if !rest.isEmpty && rest.all Char.isDigit then .ok (-(digitsToNat rest : Int))
    else .error ("invalid number: ".data ++ s)
  | _ =>
    if !s.isEmpty && s.all Char.isDigit then .ok (digitsToNat s : Int)
    else .error ("invalid number: ".data ++ s)

/-- `workflow.toFloat64` on dynamic values. -/
def toFloat64Go : GoVal → Except GoStr Int
  | .vint n => .ok n
  | .vstr s => parseIntGo s
  | v => .error ("cannot convert ".data ++ goFormat v ++ " to float64".data)

/-- Lexicographic (byte-wise) string comparison, Go's `<` on strings. -/
def goStrLt : GoStr → GoStr → Bool
  | [], [] => false
  | [], _ :: _ => true
  | _ :: _, [] => false
  | a :: as, b :: bs => if a < b then true else if b < a then false else goStrLt as bs

/-- `workflow.evaluateContains`. -/
def evaluateContains (source target : GoVal) : Except GoStr Bool :=
  match source, target with
  | .vstr s, .vstr t => .ok (containsSubL t s)
  | .varr xs, _ => .ok (xs.any (fun x => x == target))
  | .vobj m, _ => .ok (m.any (fun kv => GoVal.vstr kv.1 == target))
  | _, _ => .error "contains condition not supported".data

/-- `workflow.evaluateGreaterThan`. -/
def evaluateGreaterThan (source target : GoVal) : Except GoStr Bool :=
  match toFloat64Go source, toFloat64Go target with
  | .ok a, .ok b => .ok (b < a)
  | _, _ =>
    match source, target with
    | .vstr a, .vstr b => .ok (goStrLt b a)
    | _, _ => .error "greater than condition not supported".data

/-- `workflow.evaluateLessThan`. -/
def evaluateLessThan (source target : GoVal) : Except GoStr Bool :=
  match toFloat64Go source, toFloat64Go target with
  | .ok a, .ok b => .ok (a < b)
  | _, _ =>
    match source, target with
    | .vstr a, .vstr b => .ok (goStrLt a b)
    | _, _ => .error "less than condition not supported".data

/-- `workflow.evaluateCondition` for a non-nil condition: an absent
source variable satisfies `exists` negatively and makes every other
condition kind false without an error. -/
def evaluateCondition (cond : StepCondition) (vars : AList) : Except GoStr Bool :=
  let sourceValue := lookupL vars cond.sourceVariable
  if cond.condType = conditionExists then
    match sourceValue with
    | some v => .ok (!(v == GoVal.vnil))
    | none => .ok false
  else
    match sourceValue with
    | none => .ok false
    | some sv =>
      if cond.condType = conditionEquals then .ok (sv == cond.value)
      else if cond.condType = conditionContains then evaluateContains sv cond.value
      else if cond.condType = conditionGreaterThan then evaluateGreaterThan sv cond.value
      else if cond.condType = conditionLessThan then evaluateLessThan sv cond.value
      else .error ("unsupported condition type: ".data ++ cond.condType)

/-! ### The mini-expression language -/

/-- Split a string at its first occurrence of `{{`. -/
def findOpenSplit : GoStr → Option (GoStr × GoStr)
  | '{' :: '{' :: rest => some ([], rest)
  | c :: rest => (findOpenSplit rest).map (fun pr => (c :: pr.1, pr.2))
  | [] => none

/-- Split a string at its first occurrence of `}}`. -/
def findCloseSplit : GoStr → Option (GoStr × GoStr)
  | '}' :: '}' :: rest => some ([], rest)
  | c :: rest => (findCloseSplit rest).map (fun pr => (c :: pr.1, pr.2))
  | [] => none

/-- The leftmost match of the regex `\x7b\x7b(.+?)\x7d\x7d`: the text
before the match, the (non-empty, lazily shortest) inner group, and the
text after.  The inner group starts one mandatory character after the
opening braces and ends at the first `\x7d\x7d` from there. -/
def findExpr (s : GoStr) : Option (GoStr × GoStr × GoStr) :=
  match findOpenSplit s with
  | none => none
  | some (before, afterOpen) =>
    match afterOpen with
    | [] => none
    | c :: rest =>
      match findCloseSplit rest with
      | none => none
      | some (mid, after) => some (before, c :: mid, after)

/-- `workflow.isExpression`: the expression regex matches somewhere.
(If the leftmost `\x7b\x7b` cannot be closed, no later one can either, so
one probe suffices.) -/
def isExpression (s : GoStr) : Bool := (findExpr s).isSome

/-- All regex matches in order (`FindAllStringSubmatch`), as the list of
inner groups; fuelled recursion on the shrinking tail. -/
def findAllExprsAux : Nat → GoStr → List GoStr
  | 0, _ => []
  | fuel + 1, s =>
    match findExpr s with
    | none => []
    | some (_, inner, after) => inner :: findAllExprsAux fuel after

/-- All inner groups of the expression regex, leftmost first. -/
def findAllExprs (s : GoStr) : List GoStr := findAllExprsAux s.length s

/-- `strings.TrimSpace`. -/
def trimSpaceL (s : GoStr) : GoStr :=
  ((s.dropWhile Char.isWhitespace).reverse.dropWhile Char.isWhitespace).reverse

/-- Split at the first occurrence of a (non-empty) pattern string. -/
def findSubSplit (pat : GoStr) : GoStr → Option (GoStr × GoStr)
  | [] => none
  | c :: rest =>
    if pat.isPrefixOf (c :: rest) then some ([], (c :: rest).drop pat.length)
    else (findSubSplit pat rest).map (fun pr => (c :: pr.1, pr.2))

/-- `strings.Split` for a general non-empty separator (fuelled). -/
def splitOnSubAux (pat : GoStr) : Nat → GoStr → List GoStr
  | 0, s => [s]
  | fuel + 1, s =>
    match findSubSplit pat s with
    | none => [s]
    | some (before, after) => before :: splitOnSubAux pat fuel after

/-- `strings.Split(s, pat)` for a non-empty separator. -/
def splitOnSub (pat s : GoStr) : List GoStr := splitOnSubAux pat s.length s

/-- `workflow.isTruthy`. -/
def isTruthy : GoVal → Bool
  | .vnil => false
  | .vbool b => b
  | .vint n => n != 0
  | .vstr s => !s.isEmpty
  | .varr xs => !xs.isEmpty
  | .vobj m => !m.isEmpty

/-- `workflow.getValueForExpression`: quoted string, number, boolean,
variable, else nil. -/
def getValueForExpression (expr : GoStr) (vars : AList) : GoVal :=
  if (hasPrefixL ['\''] expr && hasSuffixL ['\''] expr) ||
     (hasPrefixL ['"'] expr && hasSuffixL ['"'] expr) then
    .vstr ((expr.drop 1).take (expr.length - 2))
  else
    match parseIntGo expr with
    | .ok n => .vint n
    | .error _ =>
      if expr = "true".data then .vbool true
      else if expr = "false".data then .vbool false
      else
        match lookupL vars expr with
        | some v => v
        | none => .vnil

/-- `workflow.evaluateTernary` on the inner text of a whole-string
expression. -/
def evaluateTernary (expr : GoStr) (vars : AList) : Except GoStr GoVal :=
  match splitOnSub ['?'] expr with
  | [condPart, rhs] =>
    let condition := trimSpaceL condPart
    match splitOnSub [':'] rhs with
    | [t, f] =>
      let trueValue := trimSpaceL t
      let falseValue := trimSpaceL f
      if containsSubL "==".data condition then
        match splitOnSub "==".data condition with
        | [l, r] =>
          let lv := getValueForExpression (trimSpaceL l) vars
          let rv := getValueForExpression (trimSpaceL r) vars
          if lv == rv then .ok (getValueForExpression trueValue vars)
          else .ok (getValueForExpression falseValue vars)
        | _ => .error ("invalid equality condition: ".data ++ condition)
      else if containsSubL "!=".data condition then
        match splitOnSub "!=".data condition with
        | [l, r] =>
          let lv := getValueForExpression (trimSpaceL l) vars
          let rv := getValueForExpression (trimSpaceL r) vars
          if !(lv == rv) then .ok (getValueForExpression trueValue vars)
          else .ok (getValueForExpression falseValue vars)
        | _ => .error ("invalid inequality condition: ".data ++ condition)
      else
        if isTruthy (getValueForExpression condition vars) then
          .ok (getValueForExpression trueValue vars)
        else .ok (getValueForExpression falseValue vars)
    | _ => .error ("invalid ternary expression: ".data ++ expr)
  | _ => .error ("invalid ternary expression: ".data ++ expr)

/-- The multi-occurrence branch of `evaluateExpression`: replace each
match (first occurrence each time) by the stringified variable value. -/
def replaceMatches (vars : AList) : GoStr → List GoStr → Except GoStr GoVal
  | result, [] => .ok (.vstr result)
  | result, inner :: rest =>
    match lookupL vars inner with
    | some v =>
      replaceMatches vars (replaceFirstL (phOpen ++ inner ++ phClose) (goFormat v) result) rest
    | none => .error ("variable ".data ++ inner ++ " not found".data)

/-- `workflow.evaluateExpression`: a whole-string `\x7b\x7bexpr\x7d\x7d`
is a ternary (when the inner text has a `?`) or a variable reference;
otherwise each embedded match is substituted by its stringified value. -/
def evaluateExpression (expr : GoStr) (vars : AList) : Except GoStr GoVal :=
  match findAllExprs expr with
  | [] => .ok (.vstr expr)
  | [inner] =>
    if phOpen ++ inner ++ phClose = expr then
      if containsSubL ['?'] inner then evaluateTernary inner vars
      else
        match lookupL vars inner with
        | some v => .ok v
        | none => .error ("variable ".data ++ inner ++ " not found".data)
    else replaceMatches vars expr [inner]
  | inners => replaceMatches vars expr inners

/-! ### Step execution -/

/-- The result record of one step execution
(`workflow.stepExecutionResult`): a nil Go `Result` map and an empty one
behave identically under extraction, so both are the empty list. -/
structure StepExecutionResult where
  stepID : GoStr
  result : AList
  err : Option GoStr

/-- The collaborator interface `APIServiceExecutor.ExecuteServiceAction`,
abstracted as an oracle from (service, action, params) to a decoded
response map or an error. -/
abbrev ExecOracle := GoStr → GoStr → AList → Except GoStr AList

/-- The fixed-parameter loop of the step body: strings that the
expression regex matches are evaluated, everything else passes through. -/
def buildFixedParams (vars acc : AList) : List (GoStr × GoVal) → Except GoStr AList
  | [] => .ok acc
  | (k, v) :: rest =>
    match v with
    | .vstr sv =>
      if isExpression sv then
        match evaluateExpression sv vars with
        | .error e =>
          .error ("error evaluating expression for fixed parameter ".data ++ k ++ ": ".data ++ e)
        | .ok ev => buildFixedParams vars (setKey acc k ev) rest
      else buildFixedParams vars (setKey acc k v) rest
    | _ => buildFixedParams vars (setKey acc k v) rest

/-- The dynamic-parameter loop: expression sources are evaluated, plain
sources are read from the scope, and an absent scope variable is only a
warning (the parameter is dropped). -/
def buildDynParams (vars acc : AList) : List (GoStr × GoStr) → Except GoStr AList
  | [] => .ok acc
  | (paramName, variableName) :: rest =>
    if isExpression variableName then
      match evaluateExpression variableName vars with
      | .error e =>
        .error ("error evaluating expression for parameter ".data ++ paramName ++ ": ".data ++ e)
      | .ok ev => buildDynParams vars (setKey acc paramName ev) rest
    else
      match lookupL vars variableName with
      | some v => buildDynParams vars (setKey acc paramName v) rest
      | none => buildDynParams vars acc rest

/-- The parameter building and API call of the step body. -/
def runStepCall (exec : ExecOracle) (s : WorkflowStep) (vars : AList) : StepExecutionResult :=
  match buildFixedParams vars [] s.parameters with
  | .error e => ⟨s.id, [], some e⟩
  | .ok fixedP =>
    match buildDynParams vars fixedP s.dynamicParams with
    | .error e => ⟨s.id, [], some e⟩
    | .ok params =>
      match exec s.serviceName s.actionName params with
      | .error e => ⟨s.id, [], some e⟩
      | .ok apiResult => ⟨s.id, apiResult, none⟩

/-- The body of the goroutine of `executeParallelSteps` for one step:
condition check, parameter construction, API call.  The with-loop
executor only ever passes singleton step lists to the fan-out, so one
sequential execution is exact. -/
def execStepOnce (exec : ExecOracle) (s : WorkflowStep) (vars : AList) : StepExecutionResult :=
  match s.condition with
  | some cond =>
    match evaluateCondition cond vars with
    | .error e =>
      ⟨s.id, [], some ("error evaluating condition for step ".data ++ s.id ++ ": ".data ++ e)⟩
    | .ok false => ⟨s.id, [], none⟩
    | .ok true => runStepCall exec s vars
  | none => runStepCall exec s vars

/-! ### Loop steps -/

/-- The per-iteration scope: the current scope with the element bound to
`loop_as` and the index bound to `loop_as + "_index"`. -/
def iterVarsAt (s : WorkflowStep) (vars : AList) (item : GoVal) (i : Nat) : AList :=
  setKey (setKey vars s.loopAs item) (s.loopAs ++ "_index".data) (.vint i)

/-- The synthesized per-iteration step: the same step with id
`"<id>[<i>]"`. -/
def iterStepAt (s : WorkflowStep) (i : Nat) : WorkflowStep :=
  { s with id := s.id ++ '[' :: natDigits i ++ [']'] }

/-- The iteration loop of `executeLoopStep`.  Mirrors the Go pair of a
partial result list and an error: an aborting iteration returns the
results gathered so far alongside the error; `continue` skips the failed
iteration; any other strategy (including `retry`) appends the failed
result and goes on. -/
def executeLoopIter (exec : ExecOracle) (s : WorkflowStep) (vars : AList) :
    Nat → List GoVal → List StepExecutionResult →
    List StepExecutionResult × Option GoStr
  | _, [], results => (results, none)
  | i, item :: rest, results =>
    let iterationResult := execStepOnce exec (iterStepAt s i) (iterVarsAt s vars item i)
    match iterationResult.err with
    | some e =>
      if s.errorHandling = [] || s.errorHandling = abortOnError then
        (results, some ("loop iteration ".data ++ natDigits i ++ " failed: ".data ++ e))
      else if s.errorHandling = continueOnError then
        executeLoopIter exec s vars (i + 1) rest results
      else executeLoopIter exec s vars (i + 1) rest (results ++ [iterationResult])
    | none => executeLoopIter exec s vars (i + 1) rest (results ++ [iterationResult])

/-- `WorkflowExecutor.executeLoopStep`: resolve the loop source, coerce
it to an array, and run the step once per element against the
per-iteration scope. -/
def executeLoopStep (exec : ExecOracle) (s : WorkflowStep) (vars : AList) :
    List StepExecutionResult × Option GoStr :=
  match lookupL vars s.loopOver with
  | none =>
    ([], some ("loop variable ".data ++ s.loopOver ++ " not found in workflow variables".data))
  | some arrayVar =>
    match toArrayGo arrayVar with
    | none => ([], some ("loop variable ".data ++ s.loopOver ++ " is not an array".data))
    | some array => executeLoopIter exec s vars 0 array []

/-! ### The executor -/

/-- Per-execution state: executed step ids, recorded raw step results,
and the variable scope. -/
structure ExecState where
  executed : List GoStr
  stepResults : List (GoStr × AList)
  vars : AList

/-- Mark a step id executed. -/
def markExecuted (st : ExecState) (id : GoStr) : ExecState :=
  { st with executed := id :: st.executed }

/-- Record a step's raw response. -/
def storeStepResult (st : ExecState) (id : GoStr) (r : AList) : ExecState :=
  { st with stepResults := (id, r) :: st.stepResults }

/-- The result-mapping loop after a successful step: for each
`responsePath → variableName` entry that extracts, bind the variable;
failed extractions leave the scope unchanged. -/
def applyResultMapping (mapping : List (GoStr × GoStr)) (result : AList) (vars : AList) : AList :=
  mapping.foldl
    (fun vs fx =>
      match extractValue result fx.1 with
      | some v => setKey vs fx.2 v
      | none => vs)
    vars

/-- Append one extracted value to the per-variable collection array. -/
def appendCollected (acc : List (GoStr × List GoVal)) (varName : GoStr) (v : GoVal) :
    List (GoStr × List GoVal) :=
  match acc with
  | [] => [(varName, [v])]
  | (k, vs) :: rest =>
    if k = varName then (k, vs ++ [v]) :: rest
    else (k, vs) :: appendCollected rest varName v

/-- Collect one iteration's extractions into the accumulator. -/
def collectMappingOne (mapping : List (GoStr × GoStr)) (result : AList)
    (acc : List (GoStr × List GoVal)) : List (GoStr × List GoVal) :=
  mapping.foldl
    (fun a fx =>
      match extractValue result fx.1 with
      | some v => appendCollected a fx.2 v
      | none => a)
    acc

/-- The collection loop after a loop step: per result-mapping target,
the extracted values of all iterations, in iteration order. -/
def collectLoopResults (mapping : List (GoStr × GoStr))
    (results : List StepExecutionResult) : List (GoStr × List GoVal) :=
  results.foldl (fun acc r => collectMappingOne mapping r.result acc) []

/-- Apply the results of a loop step to the execution state: mark and
record every iteration, then write each collected array into the scope. -/
def applyLoopResults (m : WorkflowStep) (st : ExecState)
    (loopResults : List StepExecutionResult) : ExecState :=
  if loopResults.isEmpty then st
  else
    let st1 := loopResults.foldl
      (fun acc r => storeStepResult (markExecuted acc r.stepID) r.stepID r.result) st
    let collected := collectLoopResults m.resultMapping loopResults
    { st1 with vars := collected.foldl (fun vs kv => setKey vs kv.1 (.varr kv.2)) st1.vars }

/-- The declared-or-default error strategy of a step. -/
def strategyOf (s : WorkflowStep) : GoStr :=
  if s.errorHandling = [] then abortOnError else s.errorHandling

/-- Processing of a loop member inside a parallel group: on a loop-level
error apply the strategy (an unrecognized strategy falls through the Go
switch and still applies the partial results); on success apply the
collected results. -/
def processLoopMember (exec : ExecOracle) (st : ExecState) (m : WorkflowStep) :
    Except GoStr ExecState :=
  match executeLoopStep exec m st.vars with
  | (loopResults, some err) =>
    let strat := strategyOf m
    if strat = continueOnError then .ok st
    else if strat = retryOnError then
      .error "retry strategy not implemented for loop steps".data
    else if strat = abortOnError then
      .error ("workflow loop step ".data ++ m.id ++ " failed: ".data ++ err)
    else .ok (applyLoopResults m st loopResults)
  | (loopResults, none) => .ok (applyLoopResults m st loopResults)

/-- Record a successful step result and apply its result mapping. -/
def recordAndMap (m : WorkflowStep) (st : ExecState) (r : StepExecutionResult) : ExecState :=
  let st2 := storeStepResult st r.stepID r.result
  { st2 with vars := applyResultMapping m.resultMapping r.result st2.vars }

/-- Processing of a non-loop member: execute, mark executed, then apply
the error strategy (an unrecognized strategy falls through the Go switch
and records the nil result), or record and map on success. -/
def processNormalMember (exec : ExecOracle) (st : ExecState) (m : WorkflowStep) :
    Except GoStr ExecState :=
  let r := execStepOnce exec m st.vars
  let st1 := markExecuted st r.stepID
  match r.err with
  | some e =>
    let strat := strategyOf m
    if strat = continueOnError then .ok st1
    else if strat = retryOnError then .error "retry strategy not implemented".data
    else if strat = abortOnError then
      .error ("workflow step ".data ++ r.stepID ++ " failed: ".data ++ e)
    else .ok (recordAndMap m st1 r)
  | none => .ok (recordAndMap m st1 r)

/-- Dispatch one group member to loop or normal processing. -/
def processMember (exec : ExecOracle) (st : ExecState) (m : WorkflowStep) :
    Except GoStr ExecState :=
  if m.loopOver = [] then processNormalMember exec st m
  else processLoopMember exec st m

/-- Process the members of a parallel group in order (the with-loop
executor runs each member through its own singleton fan-out). -/
def processMembers (exec : ExecOracle) : ExecState → List WorkflowStep → Except GoStr ExecState
  | st, [] => .ok st
  | st, m :: rest =>
    match processMember exec st m with
    | .error e => .error e
    | .ok st2 => processMembers exec st2 rest

/-- The later steps pulled into the group of a step: every following step
gets appended once per occurrence of the id in its `parallel_with`. -/
def gatherPeers (id : GoStr) (later : List WorkflowStep) : List WorkflowStep :=
  later.foldr
    (fun ns acc => ((ns.parallelWith.filter (fun pid => pid = id)).map (fun _ => ns)) ++ acc) []

/-- Processing of the step at one index of the workflow's step list:
skip already-executed ids, gather the parallel peers (marking them
executed up front), then run the group's members. -/
def processIndex (exec : ExecOracle) (wf : Workflow) (st : ExecState) (i : Nat) :
    Except GoStr ExecState :=
  match wf.steps.get? i with
  | none => .ok st
  | some step =>
    if st.executed.contains step.id then .ok st
    else
      let peers := gatherPeers step.id (wf.steps.drop (i + 1))
      let st1 := { st with executed := st.executed ++ peers.map (·.id) }
      processMembers exec st1 (step :: peers)

/-- Fold the index processor over a list of step indices. -/
def runFrom (exec : ExecOracle) (wf : Workflow) : ExecState → List Nat → Except GoStr ExecState
  | st, [] => .ok st
  | st, i :: rest =>
    match processIndex exec wf st i with
    | .error e => .error e
    | .ok st2 => runFrom exec wf st2 rest

/-- The initial scope: workflow default variables overlaid with the
initial call parameters. -/
def initialVars (wf : Workflow) (initialParams : AList) : AList :=
  insertAll (insertAll [] wf.vars) initialParams

/-- The step-processing phase of `ExecuteWorkflow`. -/
def executeWorkflowCore (exec : ExecOracle) (wf : Workflow) (initialParams : AList) :
    Except GoStr ExecState :=
  runFrom exec wf ⟨[], [], initialVars wf initialParams⟩ (List.range wf.steps.length)

/-- The raw response of the last step that actually ran: the first
recorded result when scanning the declared steps backwards. -/
def findLastResult (steps : List WorkflowStep) (stepResults : List (GoStr × AList)) :
    Option AList :=
  steps.reverse.findSome? (fun s => lookupL stepResults s.id)

/-- `strings.SplitN(s, c, 2)` (used with the guard that `c` occurs). -/
def splitN2Char (c : Char) : GoStr → GoStr × GoStr
  | [] => ([], [])
  | x :: xs =>
    if x = c then ([], xs)
    else
      let pr := splitN2Char c xs
      (x :: pr.1, pr.2)

/-- `workflow.evaluateAggregatorExpression`. -/
def evaluateAggregatorExpression (expr : GoStr) (vars : AList) : Except GoStr GoVal :=
  if hasSuffixL ".length".data expr then
    let varName := trimSuffixL ".length".data expr
    match lookupL vars varName with
    | some value =>
      match toArrayGo value with
      | some array => .ok (.vint array.length)
      | none =>
        match value with
        | .vstr s => .ok (.vint s.length)
        | .vobj m => .ok (.vint m.length)
        | _ => .error "cannot get length".data
    | none => .error ("variable ".data ++ varName ++ " not found for length operation".data)
  else if containsSubL ['.'] expr && !hasPrefixL phOpen expr then
    let pr := splitN2Char '.' expr
    let baseVar := pr.1
    let path := pr.2
    if baseVar = "input".data then
      match extractValue vars path with
      | some v => .ok v
      | none => .error ("could not extract path ".data ++ path ++ " from input".data)
    else
      match lookupL vars baseVar with
      | none => .error ("variable ".data ++ baseVar ++ " not found".data)
      | some (.vobj baseMap) =>
        match extractValue baseMap path with
        | some v => .ok v
        | none =>
          .error ("could not extract path ".data ++ path ++ " from variable ".data ++ baseVar)
      | some _ => .error ("variable ".data ++ baseVar ++ " is not an object".data)
  else
    match lookupL vars expr with
    | some v => .ok v
    | none =>
      if isExpression expr then evaluateExpression expr vars
      else if !containsSubL phOpen expr && !containsSubL phClose expr then
        if expr = "true".data then .ok (.vbool true)
        else if expr = "false".data then .ok (.vbool false)
        else if expr = "null".data then .ok .vnil
        else
          match parseIntGo expr with
          | .ok n => .ok (.vint n)
          | .error _ => .ok (.vstr expr)
      else .error ("could not evaluate expression: ".data ++ expr)

/-- The aggregator phase: evaluate each output-field expression against
the final scope, skipping (with only a log line) the ones that fail. -/
def applyAggregator (wf : Workflow) (vars : AList) : AList :=
  wf.aggregator.foldl
    (fun acc kv =>
      match evaluateAggregatorExpression kv.2 vars with
      | .ok v => setKey acc kv.1 v
      | .error _ => acc)
    []

/-- `WorkflowExecutor.ExecuteWorkflow` for an already-looked-up workflow.
`rt` abstracts the `json.Marshal` + `json.Unmarshal` round trip into the
caller's destination, and `withResult` models a non-nil destination; the
returned pair is (final scope, what the destination received).  (Where
the Go code returns the scope next to a marshalling error, the `Except`
model keeps only the error; no claim concerns those paths.) -/
def executeWorkflow (exec : ExecOracle) (rt : AList → Except GoStr GoVal) (wf : Workflow)
    (initialParams : AList) (withResult : Bool) : Except GoStr (AList × Option GoVal) :=
  match executeWorkflowCore exec wf initialParams with
  | .error e => .error e
  | .ok st =>
    if withResult then
      if !wf.aggregator.isEmpty then
        match rt (applyAggregator wf st.vars) with
        | .ok d => .ok (st.vars, some d)
        | .error e => .error ("error marshaling aggregated result: ".data ++ e)
      else
        match findLastResult wf.steps st.stepResults with
        | some lastStepResult =>
          match rt lastStepResult with
          | .ok d => .ok (st.vars, some d)
          | .error e => .error ("error unmarshaling last step result: ".data ++ e)
        | none => .ok (st.vars, none)
    else .ok (st.vars, none)

/-! ### Predicates and resolution functions used by the statements -/

/-- A string free of placeholder braces. -/
def braceFreeB (s : GoStr) : Bool := s.all (fun c => !(c == '{') && !(c == '}'))

/-- A placeholder name that can sit in a path segment without ambiguity:
no braces, no segment separator, no optionality marker. -/
def cleanName (n : GoStr) : Bool :=
  n.all (fun c => !(c == '{') && !(c == '}') && !(c == '/') && !(c == '?'))

/-- Well-formed endpoint piece: either a brace-free literal segment or a
whole-segment placeholder with a clean name. -/
def SegWellFormed (pc : GoStr) : Prop :=
  braceFreeB pc = true ∨ ∃ n o, pc = phSeg n o ∧ cleanName n = true

/-- Resolve a piece given the set `S` of already-processed placeholder
names: processed placeholders become their merged value's string form,
everything else stays. -/
def resSet (merged : AList) (S : List GoStr) (pc : GoStr) : GoStr :=
  match parsePh pc with
  | some (n, _) =>
    if S.contains n then
      match lookupA merged n with
      | some v => goFormat v
      | none => pc
    else pc
  | none => pc

/-- The placeholder names of a list of endpoint pieces, in order. -/
def phNames (pieces : List GoStr) : List GoStr :=
  pieces.filterMap (fun pc => (parsePh pc).map Prod.fst)

/-- Resolve a piece at the end of path processing, dropping optional
placeholders whose name has no merged value. -/
def resolveOrDrop (merged : AList) (pc : GoStr) : Option GoStr :=
  match parsePh pc with
  | some (n, _) =>
    match lookupA merged n with
    | some v => some (goFormat v)
    | none => none
  | none => some pc

/-- The effect of one `ReplaceAll` pass on a single well-formed endpoint
piece: the piece is replaced exactly when it equals the placeholder
being substituted. -/
def replacePc (n : GoStr) (o : Bool) (rep : GoStr) (pc : GoStr) : GoStr :=
  if pc = phSeg n o then rep else pc

mutual
/-- Sufficient condition for a template body/query value to survive
processing: every whole-string placeholder in the tree has a merged value
that is neither nil nor the empty string, and no subtree container is
empty. -/
def templateValueOK (merged : AList) : GoVal → Bool
  | .vstr s =>
    match parsePh s with
    | some (n, _) =>
      match lookupA merged n with
      | some v => !(v == GoVal.vstr []) && !(v == GoVal.vnil)
      | none => false
    | none => true
  | .vobj fields => !fields.isEmpty && templateFieldsOK merged fields
  | .varr xs => !xs.isEmpty && templateItemsOK merged xs
  | _ => true

/-- `templateValueOK` over map entries. -/
def templateFieldsOK (merged : AList) : List (GoStr × GoVal) → Bool
  | [] => true
  | (_, v) :: rest => templateValueOK merged v && templateFieldsOK merged rest

/-- `templateValueOK` over array elements. -/
def templateItemsOK (merged : AList) : List GoVal → Bool
  | [] => true
  | v :: rest => templateValueOK merged v && templateItemsOK merged rest
end

/-- Recursive well-formedness of a step list relative to the already
seen ids, mirroring the accumulator of the validation loop. -/
def StepsSpec (seen : List GoStr) : List WorkflowStep → Prop
  | [] => True
  | step :: rest =>
    step.id ≠ [] ∧ step.id ∉ seen ∧ step.serviceName ≠ [] ∧ step.actionName ≠ [] ∧
    (∀ pid ∈ step.parallelWith, pid ∈ step.id :: seen) ∧ StepsSpec (step.id :: seen) rest

/-- The registration-fault predicate of claim C3 as amended: ids are
checked against the steps up to and **including** the referencing step
(the code registers a step's own id before checking its
`parallel_with`). -/
def registrationFault (wf : Workflow) : Prop :=
  wf.name = [] ∨
  (∃ s ∈ wf.steps, s.id = []) ∨
  ¬(wf.steps.map (·.id)).Nodup ∨
  (∃ s ∈ wf.steps, s.serviceName = [] ∨ s.actionName = []) ∨
  (∃ i, ∃ h : i < wf.steps.length, ∃ pid ∈ (wf.steps.get ⟨i, h⟩).parallelWith,
    pid ∉ (wf.steps.take (i + 1)).map (·.id))

/-! ## Lemmas about lookup and merging -/

theorem lookupL_eq_none {α : Type} (m : List (GoStr × α)) (k : GoStr) :
    lookupL m k = none ↔ k ∉ m.map Prod.fst := by
  induction m with
  | nil => exact ⟨fun _ => by simp, fun _ => rfl⟩
  | cons p rest ih =>
    obtain ⟨k2, v⟩ := p
    simp only [lookupL, List.map_cons, List.mem_cons]
    by_cases h : k2 = k
    · subst h
      rw [if_pos rfl]
      constructor
      · intro hsv
        exact absurd hsv (Option.some_ne_none v)
      · intro hn
        exact absurd (Or.inl rfl) hn
    · rw [if_neg h, ih]
      constructor
      · rintro hnm (rfl | hmem)
        · exact h rfl
        · exact hnm hmem
      · intro hn hmem
        exact hn (Or.inr hmem)

theorem insertAll_cons (base : AList) (k1 : GoStr) (v1 : GoVal) (rest : AList) :
    insertAll base ((k1, v1) :: rest) = insertAll (setKey base k1 v1) rest := rfl

theorem lookupA_insertAll (base entries : AList) (k : GoStr)
    (hnd : (entries.map Prod.fst).Nodup) :
    lookupA (insertAll base entries) k =
      match lookupL entries k with
      | some v => some v
      | none => lookupA base k := by
  induction entries generalizing base with
  | nil => simp [insertAll, lookupL]
  | cons p rest ih =>
    obtain ⟨k1, v1⟩ := p
    rw [List.map_cons, List.nodup_cons] at hnd
    rw [insertAll_cons, ih _ hnd.2]
    by_cases h : k1 = k
    · subst h
      have hnone : lookupL rest k1 = none := (lookupL_eq_none rest k1).mpr hnd.1
      simp [hnone, lookupL, lookupA, setKey]
    · cases hres : lookupL rest k with
      | some v => simp [lookupL, h, hres]
      | none => simp [lookupL, h, hres, lookupA, setKey]

/-! ## Lemmas about placeholder shapes -/

theorem prefix_suffix_decomp (s : GoStr)
    (h1 : hasPrefixL phOpen s = true) (h2 : hasSuffixL phClose s = true) :
    ∃ mid, s = phOpen ++ mid ++ phClose := by
  rw [hasPrefixL, List.isPrefixOf_iff_prefix] at h1
  rw [hasSuffixL, List.isSuffixOf_iff_suffix] at h2
  obtain ⟨t, ht⟩ := h1
  obtain ⟨u, hu⟩ := h2
  subst ht
  match u, hu with
  | [], hu => simp [phOpen, phClose] at hu
  | [x], hu => simp [phOpen, phClose] at hu
  | x :: y :: u2, hu =>
    refine ⟨u2, ?_⟩
    simp only [phOpen, phClose, List.cons_append, List.nil_append, List.cons.injEq] at hu ⊢
    obtain ⟨hx, hy, ht⟩ := hu
    simp [← hx, ← hy, ht]

theorem not_decomp_of_not_wholePh (s : GoStr)
    (h : (hasPrefixL phOpen s && hasSuffixL phClose s) = false) :
    ∀ mid, s ≠ phOpen ++ mid ++ phClose := by
  intro mid heq
  subst heq
  have h1 : hasPrefixL phOpen (phOpen ++ mid ++ phClose) = true := by
    rw [hasPrefixL, List.isPrefixOf_iff_prefix, List.append_assoc]
    exact List.prefix_append _ _
  have h2 : hasSuffixL phClose (phOpen ++ mid ++ phClose) = true := by
    rw [hasSuffixL, List.isSuffixOf_iff_suffix]
    exact List.suffix_append _ _
  rw [h1, h2] at h
  exact Bool.noConfusion h

/-! ## Claim C10: absent condition variables -/

/-- **C10.** For step conditions of kind `equals`, `contains`,
`greater_than`, or `less_than`, an absent source variable makes the
condition evaluate to `false` with no error, so the step completes with
an empty result and no error (it is skipped) instead of failing. -/
theorem claim_C10_absent_condition_skips (exec : ExecOracle) (s : WorkflowStep)
    (vars : AList) (cond : StepCondition)
    (hc : s.condition = some cond)
    (ht : cond.condType = conditionEquals ∨ cond.condType = conditionContains ∨
          cond.condType = conditionGreaterThan ∨ cond.condType = conditionLessThan)
    (hm : lookupL vars cond.sourceVariable = none) :
    evaluateCondition cond vars = .ok false ∧
    execStepOnce exec s vars = ⟨s.id, [], none⟩ := by
  have hne : cond.condType ≠ conditionExists := by
    rcases ht with h | h | h | h <;> rw [h] <;> decide
  have heval : evaluateCondition cond vars = .ok false := by
    rw [evaluateCondition]
    simp only [hm, hne, if_false]
  refine ⟨heval, ?_⟩
  simp only [execStepOnce, hc, heval]

/-- Witness for C10 at a concrete step and scope. -/
theorem claim_C10_witness :
    evaluateCondition ⟨conditionEquals, "missing".data, .vint 1⟩ [] = .ok false ∧
    execStepOnce (fun _ _ _ => .error "x".data)
      ⟨"s1".data, [], "svc".data, "act".data, [], [], [],
        some ⟨conditionEquals, "missing".data, .vint 1⟩, [], [], 0, 0, [], []⟩ [] =
      ⟨"s1".data, [], none⟩ :=
  claim_C10_absent_condition_skips _ _ _ _ rfl (Or.inl rfl) rfl

/-! ## Claim C9: registration is atomic -/

/-- **C9.** Whenever `RegisterWorkflow` reports an error, the registry it
returns is the unchanged input registry; in particular, when
`AddWorkflowStep` extends an existing workflow with a step that fails
validation, the previously stored workflow remains registered and is
still returned by `GetWorkflow`. -/
theorem claim_C9_registration_atomic (reg : Registry) (wf : Workflow)
    (name : GoStr) (step : WorkflowStep) (old : Workflow) (e e2 : GoStr) :
    ((registerWorkflow reg wf).2 = some e → (registerWorkflow reg wf).1 = reg) ∧
    (getWorkflow reg name = some old →
      (addWorkflowStep reg name step).2 = some e2 →
      getWorkflow (addWorkflowStep reg name step).1 name = some old) := by
  have hreg : ∀ (wf2 : Workflow) (e3 : GoStr),
      (registerWorkflow reg wf2).2 = some e3 → (registerWorkflow reg wf2).1 = reg := by
    intro wf2 e3 h
    rw [registerWorkflow] at h ⊢
    by_cases hn : wf2.name = []
    · simp [hn]
    · simp only [hn, if_false] at h ⊢
      cases hv : validateSteps wf2.name [] wf2.steps with
      | some e4 => simp [hv]
      | none => simp [hv] at h
  refine ⟨hreg wf e, ?_⟩
  intro hold herr
  rw [addWorkflowStep, hold] at herr ⊢
  rw [hreg _ _ herr, hold]

/-- Witness for C9: registering a nameless workflow fails and leaves the
registry intact, and extending a stored workflow with an empty-id step
fails and keeps the stored workflow retrievable. -/
theorem claim_C9_witness :
    (registerWorkflow
        [("w".data, ⟨"w".data, [], [], [], []⟩)] ⟨[], [], [], [], []⟩).1 =
        [("w".data, ⟨"w".data, [], [], [], []⟩)] ∧
    getWorkflow
        (addWorkflowStep [("w".data, ⟨"w".data, [], [], [], []⟩)] "w".data
          ⟨[], [], "x".data, "y".data, [], [], [], none, [], [], 0, 0, [], []⟩).1
        "w".data = some ⟨"w".data, [], [], [], []⟩ := by
  have h := claim_C9_registration_atomic
    [("w".data, ⟨"w".data, [], [], [], []⟩)] ⟨[], [], [], [], []⟩
    "w".data ⟨[], [], "x".data, "y".data, [], [], [], none, [], [], 0, 0, [], []⟩
    ⟨"w".data, [], [], [], []⟩ "workflow must have a name".data
    ("step in workflow ".data ++ "w".data ++ " must have an ID".data)
  exact ⟨h.1 rfl, h.2 rfl rfl⟩

/-! ## Claim C2: parameter precedence -/

/-- **C2.** The merged parameter layer of `PrepareRequest` maps each name
to the per-call value when present, else the service-level global value
when present, else the service default value. -/
theorem claim_C2_parameter_precedence (defaults globals call : AList) (k : GoStr)
    (hd : (defaults.map Prod.fst).Nodup)
    (hg : (globals.map Prod.fst).Nodup)
    (hc : (call.map Prod.fst).Nodup) :
    lookupA (mergeParams defaults globals call) k =
      match lookupL call k with
      | some v => some v
      | none =>
        match lookupL globals k with
        | some v => some v
        | none => lookupL defaults k := by
  rw [mergeParams, lookupA_insertAll _ _ _ hc]
  cases h1 : lookupL call k with
  | some v => rfl
  | none =>
    rw [lookupA_insertAll _ _ _ hg]
    cases h2 : lookupL globals k with
    | some v => rfl
    | none =>
      rw [lookupA_insertAll _ _ _ hd]
      cases h3 : lookupL defaults k with
      | some v => rfl
      | none => simp [lookupA, lookupL]

/-- Witness for C2 at concrete three-layer parameters. -/
theorem claim_C2_witness :
    lookupA (mergeParams [("a".data, .vint 1), ("b".data, .vint 2)]
      [("b".data, .vint 3)] [("c".data, .vint 4)]) "b".data = some (.vint 3) := by
  have h := claim_C2_parameter_precedence
    [("a".data, .vint 1), ("b".data, .vint 2)] [("b".data, .vint 3)]
    [("c".data, .vint 4)] "b".data (by decide) (by decide) (by decide)
  rw [h]
  rfl

/-! ## Claim C8: only whole-string placeholders are substituted -/

/-- **C8.** The template placeholder processor substitutes a string
scalar only when the whole string has the shape of a placeholder: any
string that is not `\x7b\x7bX\x7d\x7d` for some `X` (in particular one
merely containing an embedded placeholder, like `"Hello \x7b\x7bname\x7d\x7d"`)
passes through unchanged and valid, regardless of the parameter map. -/
theorem claim_C8_whole_string_only (params : AList) (optionals : List GoStr) (s : GoStr)
    (h : ∀ mid, s ≠ phOpen ++ mid ++ phClose) :
    processTemplateValue params optionals (.vstr s) = some (.vstr s) := by
  rw [processTemplateValue]
  cases hps : (hasPrefixL phOpen s && hasSuffixL phClose s) with
  | false => simp [hps]
  | true =>
    rw [Bool.and_eq_true] at hps
    obtain ⟨mid, hmid⟩ := prefix_suffix_decomp s hps.1 hps.2
    exact absurd hmid (h mid)

/-- Witness for C8: `"Hello \x7b\x7bname\x7d\x7d"` is a literal even with
`name` bound. -/
theorem claim_C8_witness :
    processTemplateValue [("name".data, .vstr "world".data)] []
      (.vstr "Hello \x7b\x7bname\x7d\x7d".data) =
      some (.vstr "Hello \x7b\x7bname\x7d\x7d".data) :=
  claim_C8_whole_string_only _ _ _
    (not_decomp_of_not_wholePh _ (by decide))

/-! ## Lemmas about step execution -/

theorem runStepCall_stepID (exec : ExecOracle) (s : WorkflowStep) (vars : AList) :
    (runStepCall exec s vars).stepID = s.id := by
  rw [runStepCall]
  split
  · rfl
  · split
    · rfl
    · split <;> rfl

theorem execStepOnce_stepID (exec : ExecOracle) (s : WorkflowStep) (vars : AList) :
    (execStepOnce exec s vars).stepID = s.id := by
  rw [execStepOnce]
  split
  · split
    · rfl
    · rfl
    · exact runStepCall_stepID exec s vars
  · exact runStepCall_stepID exec s vars

/-! ## Claim C6: error-handling strategies -/

/-- **C6.** When a non-loop workflow step with no parallel peers fails:
under strategy `continue` the index processor succeeds with the scope and
recorded results unchanged (the failed step's result-mapping variables
are not bound); under `abort`, and equally when no strategy is declared,
it fails with the step's wrapped error; under `retry` it fails with the
`retry strategy not implemented` error.  An index-processor error
terminates the workflow run with that error, and a success makes the run
proceed to the following steps from the new state. -/
theorem claim_C6_error_strategies (exec : ExecOracle) (wf : Workflow) (st : ExecState)
    (i : Nat) (s : WorkflowStep) (e : GoStr) (rest : List Nat)
    (hs : wf.steps.get? i = some s)
    (hl : s.loopOver = [])
    (hx : st.executed.contains s.id = false)
    (hp : gatherPeers s.id (wf.steps.drop (i + 1)) = [])
    (he : (execStepOnce exec s st.vars).err = some e) :
    (s.errorHandling = continueOnError →
      ∃ st2, processIndex exec wf st i = .ok st2 ∧
        st2.vars = st.vars ∧ st2.stepResults = st.stepResults) ∧
    ((s.errorHandling = abortOnError ∨ s.errorHandling = []) →
      processIndex exec wf st i =
        .error ("workflow step ".data ++ s.id ++ " failed: ".data ++ e)) ∧
    (s.errorHandling = retryOnError →
      processIndex exec wf st i = .error "retry strategy not implemented".data) ∧
    (∀ msg, processIndex exec wf st i = .error msg →
      runFrom exec wf st (i :: rest) = .error msg) ∧
    (∀ st2, processIndex exec wf st i = .ok st2 →
      runFrom exec wf st (i :: rest) = runFrom exec wf st2 rest) := by
  have hidx : processIndex exec wf st i =
      processNormalMember exec { st with executed := st.executed ++ [] } s := by
    rw [processIndex, hs]
    simp only [hx, Bool.false_eq_true, if_false, hp, List.map_nil]
    rw [processMembers, processMember, hl]
    simp only [if_pos rfl]
    cases h : processNormalMember exec { st with executed := st.executed ++ [] } s with
    | error e2 => rfl
    | ok st2 => rfl
  refine ⟨?_, ?_, ?_, ?_, ?_⟩
  · intro hEH
    have hstrat : strategyOf s = continueOnError := by
      rw [strategyOf, hEH]
      decide
    refine ⟨markExecuted { st with executed := st.executed ++ [] }
      (execStepOnce exec s st.vars).stepID, ?_, rfl, rfl⟩
    rw [hidx]
    simp [processNormalMember, he, hstrat]
  · intro hEH
    have hstrat : strategyOf s = abortOnError := by
      rcases hEH with h1 | h1 <;> rw [strategyOf, h1] <;> decide
    rw [hidx]
    simp +decide [processNormalMember, he, hstrat, execStepOnce_stepID]
  · intro hEH
    have hstrat : strategyOf s = retryOnError := by
      rw [strategyOf, hEH]
      decide
    rw [hidx]
    simp +decide [processNormalMember, he, hstrat]
  · intro msg hmsg
    rw [runFrom, hmsg]
  · intro st2 hok
    rw [runFrom, hok]

/-- Witness for C6 at a failing one-step workflow under each strategy. -/
theorem claim_C6_witness :
    (∃ st2, processIndex (fun _ _ _ => .error "boom".data)
        ⟨"w".data, [], [⟨"s1".data, [], "svc".data, "act".data, [], [], [], none, [],
          continueOnError, 0, 0, [], []⟩], [], []⟩ ⟨[], [], []⟩ 0 = .ok st2 ∧
        st2.vars = [] ∧ st2.stepResults = []) ∧
    processIndex (fun _ _ _ => .error "boom".data)
        ⟨"w".data, [], [⟨"s1".data, [], "svc".data, "act".data, [], [], [], none, [],
          [], 0, 0, [], []⟩], [], []⟩ ⟨[], [], []⟩ 0 =
      .error ("workflow step ".data ++ "s1".data ++ " failed: ".data ++ "boom".data) ∧
    processIndex (fun _ _ _ => .error "boom".data)
        ⟨"w".data, [], [⟨"s1".data, [], "svc".data, "act".data, [], [], [], none, [],
          retryOnError, 0, 0, [], []⟩], [], []⟩ ⟨[], [], []⟩ 0 =
      .error "retry strategy not implemented".data := by
  refine ⟨?_, ?_, ?_⟩
  · exact (claim_C6_error_strategies (fun _ _ _ => .error "boom".data)
      ⟨"w".data, [], [⟨"s1".data, [], "svc".data, "act".data, [], [], [], none, [],
        continueOnError, 0, 0, [], []⟩], [], []⟩ ⟨[], [], []⟩ 0
      ⟨"s1".data, [], "svc".data, "act".data, [], [], [], none, [],
        continueOnError, 0, 0, [], []⟩ "boom".data []
      rfl rfl rfl rfl rfl).1 rfl
  · exact (claim_C6_error_strategies (fun _ _ _ => .error "boom".data)
      ⟨"w".data, [], [⟨"s1".data, [], "svc".data, "act".data, [], [], [], none, [],
        [], 0, 0, [], []⟩], [], []⟩ ⟨[], [], []⟩ 0
      ⟨"s1".data, [], "svc".data, "act".data, [], [], [], none, [],
        [], 0, 0, [], []⟩ "boom".data []
      rfl rfl rfl rfl rfl).2.1 (Or.inr rfl)
  · exact (claim_C6_error_strategies (fun _ _ _ => .error "boom".data)
      ⟨"w".data, [], [⟨"s1".data, [], "svc".data, "act".data, [], [], [], none, [],
        retryOnError, 0, 0, [], []⟩], [], []⟩ ⟨[], [], []⟩ 0
      ⟨"s1".data, [], "svc".data, "act".data, [], [], [], none, [],
        retryOnError, 0, 0, [], []⟩ "boom".data []
      rfl rfl rfl rfl rfl).2.2.1 rfl

/-! ## Claim C5: last-step result without an aggregator -/

/-- **C5.** For a workflow with no aggregator executed with a non-nil
destination, when the step phase completes without a fatal error the
destination receives the JSON round-trip of the raw response of the last
step that actually ran — the latest step in declaration order with a
recorded result — and the full variable scope is returned alongside. -/
theorem claim_C5_last_step_result (exec : ExecOracle) (rt : AList → Except GoStr GoVal)
    (wf : Workflow) (params : AList) (st : ExecState) (res : AList) (d : GoVal)
    (hcore : executeWorkflowCore exec wf params = .ok st)
    (hagg : wf.aggregator = [])
    (hlast : findLastResult wf.steps st.stepResults = some res)
    (hrt : rt res = .ok d) :
    executeWorkflow exec rt wf params true = .ok (st.vars, some d) := by
  rw [executeWorkflow, hcore]
  simp only [hagg, List.isEmpty_nil, Bool.not_true, Bool.false_eq_true, if_false, if_true,
    hlast, hrt]

/-- Witness for C5: a two-step workflow whose destination receives the
second step's response. -/
theorem claim_C5_witness :
    executeWorkflow
      (fun _ act _ => .ok [("from".data, .vstr act)])
      (fun m => .ok (.vobj m))
      ⟨"w".data, [],
        [⟨"s1".data, [], "svc".data, "a1".data, [], [], [], none, [], [], 0, 0, [], []⟩,
         ⟨"s2".data, [], "svc".data, "a2".data, [], [], [], none, [], [], 0, 0, [], []⟩],
        [], []⟩
      [] true =
      .ok ([], some (.vobj [("from".data, .vstr "a2".data)])) := by
  exact claim_C5_last_step_result
    (fun _ act _ => .ok [("from".data, .vstr act)])
    (fun m => .ok (.vobj m))
    ⟨"w".data, [],
      [⟨"s1".data, [], "svc".data, "a1".data, [], [], [], none, [], [], 0, 0, [], []⟩,
       ⟨"s2".data, [], "svc".data, "a2".data, [], [], [], none, [], [], 0, 0, [], []⟩],
      [], []⟩
    []
    ⟨["s2".data, "s1".data],
      [("s2".data, [("from".data, .vstr "a2".data)]),
       ("s1".data, [("from".data, .vstr "a1".data)])],
      []⟩
    [("from".data, .vstr "a2".data)] (.vobj [("from".data, .vstr "a2".data)])
    rfl rfl rfl rfl

/-! ## Claim C3: registration guards -/

theorem validateSteps_eq_none_iff (n : GoStr) :
    ∀ (steps : List WorkflowStep) (seen : List GoStr),
      validateSteps n seen steps = none ↔ StepsSpec seen steps := by
  intro steps
  induction steps with
  | nil => intro seen; simp [validateSteps, StepsSpec]
  | cons step rest ih =>
    intro seen
    rw [validateSteps, StepsSpec]
    by_cases h1 : step.id = []
    · simp [h1]
    · rw [if_neg h1]
      by_cases h2 : seen.contains step.id
      · rw [if_pos h2]
        have hmem : step.id ∈ seen := List.elem_iff.mp h2
        simp [h1, hmem]
      · rw [if_neg h2]
        have hmem : step.id ∉ seen := fun hm => h2 (List.elem_iff.mpr hm)
        by_cases h3 : (step.serviceName = [] || step.actionName = []) = true
        · rw [if_pos h3]
          rw [Bool.or_eq_true, decide_eq_true_iff, decide_eq_true_iff] at h3
          constructor
          · intro hc
            exact Option.noConfusion hc
          · rintro ⟨-, -, hsv, hac, -⟩
            rcases h3 with h | h
            · exact absurd h hsv
            · exact absurd h hac
        · rw [if_neg h3]
          rw [Bool.or_eq_true, decide_eq_true_iff, decide_eq_true_iff] at h3
          push_neg at h3
          cases hf : step.parallelWith.find? (fun pid => !((step.id :: seen).contains pid)) with
          | some pid =>
            have hpid := List.find?_some hf
            have hpmem := List.mem_of_find?_eq_some hf
            have hnotin : pid ∉ step.id :: seen := by
              intro hm
              have hc : (step.id :: seen).contains pid = true := List.elem_iff.mpr hm
              rw [hc] at hpid
              exact Bool.noConfusion hpid
            constructor
            · intro hc
              exact Option.noConfusion hc
            · rintro ⟨-, -, -, -, hpar, -⟩
              exact absurd (hpar pid hpmem) hnotin
          | none =>
            rw [List.find?_eq_none] at hf
            have hpar : ∀ pid ∈ step.parallelWith, pid ∈ step.id :: seen := by
              intro pid hp
              have hb := hf pid hp
              have hb2 : (step.id :: seen).contains pid = true := by
                by_contra hcc
                rw [Bool.not_eq_true] at hcc
                rw [hcc] at hb
                exact hb rfl
              exact List.elem_iff.mp hb2
            rw [ih (step.id :: seen)]
            constructor
            · intro hs
              exact ⟨h1, hmem, h3.1, h3.2, hpar, hs⟩
            · rintro ⟨-, -, -, -, -, hs⟩
              exact hs

theorem stepsSpec_iff :
    ∀ (steps : List WorkflowStep) (seen : List GoStr),
      StepsSpec seen steps ↔
        ((∀ s ∈ steps, s.id ≠ [] ∧ s.serviceName ≠ [] ∧ s.actionName ≠ []) ∧
         (steps.map (·.id)).Nodup ∧
         (∀ s ∈ steps, s.id ∉ seen) ∧
         (∀ i, ∀ h : i < steps.length, ∀ pid ∈ (steps.get ⟨i, h⟩).parallelWith,
            pid ∈ seen ∨ pid ∈ (steps.take (i + 1)).map (·.id))) := by
  intro steps
  induction steps with
  | nil => intro seen; simp [StepsSpec]
  | cons step rest ih =>
    intro seen
    rw [StepsSpec, ih (step.id :: seen)]
    constructor
    · rintro ⟨hid, hseen, hsv, hac, hpar, ⟨hall, hnd, hnotin, hidx⟩⟩
      refine ⟨?_, ?_, ?_, ?_⟩
      · intro s hs
        rcases List.mem_cons.mp hs with rfl | hs2
        · exact ⟨hid, hsv, hac⟩
        · exact hall s hs2
      · rw [List.map_cons, List.nodup_cons]
        refine ⟨?_, hnd⟩
        intro hm
        rw [List.mem_map] at hm
        obtain ⟨s, hs, hsid⟩ := hm
        refine hnotin s hs ?_
        rw [hsid]
        exact List.mem_cons_self _ _
      · intro s hs
        rcases List.mem_cons.mp hs with rfl | hs2
        · exact hseen
        · intro hc
          exact hnotin s hs2 (List.mem_cons_of_mem _ hc)
      · intro i hi pid hpid
        match i, hi with
        | 0, _ =>
          rcases List.mem_cons.mp (hpar pid hpid) with h | h
          · right
            simp [h]
          · left
            exact h
        | j + 1, hi =>
          have hj : j < rest.length := by simpa using hi
          have hstep := hidx j hj pid (by exact hpid)
          rcases hstep with h | h
          · rcases List.mem_cons.mp h with h2 | h2
            · right
              rw [List.take_succ_cons, List.map_cons, List.mem_cons]
              left
              exact h2
            · left
              exact h2
          · right
            rw [List.take_succ_cons, List.map_cons, List.mem_cons]
            right
            exact h
    · rintro ⟨hall, hnd, hnotin, hidx⟩
      rw [List.map_cons, List.nodup_cons] at hnd
      have hhead := hall step (List.mem_cons_self _ _)
      refine ⟨hhead.1, hnotin step (List.mem_cons_self _ _), hhead.2.1, hhead.2.2,
        ?_, ?_, hnd.2, ?_, ?_⟩
      · intro pid hpid
        have hstep := hidx 0 (by simp) pid (by exact hpid)
        rcases hstep with h | h
        · exact List.mem_cons_of_mem _ h
        · rw [List.take_succ_cons, List.take_zero, List.map_cons, List.map_nil] at h
          rw [List.mem_cons]
          left
          simpa using h
      · intro s hs
        exact hall s (List.mem_cons_of_mem _ hs)
      · intro s hs
        rw [List.mem_cons, not_or]
        refine ⟨?_, hnotin s (List.mem_cons_of_mem _ hs)⟩
        intro hc
        exact hnd.1 (List.mem_map.mpr ⟨s, hs, hc⟩)
      · intro j hj pid hpid
        have hstep := hidx (j + 1) (by simpa using hj) pid (by simpa using hpid)
        rcases hstep with h | h
        · left
          exact List.mem_cons_of_mem _ h
        · rw [List.take_succ_cons, List.map_cons, List.mem_cons] at h
          rcases h with h | h
          · left
            simp [h]
          · right
            exact h

/-- **C3 (amended).** `RegisterWorkflow` accepts a workflow — and then
stores it under its name — exactly when: the name is non-empty, every
step id is non-empty, ids are pairwise distinct, every step has a
service and an action name, and every `parallel_with` reference names an
id defined by an earlier step **or the step itself** (the code registers
the step's own id before checking its references). -/
theorem claim_C3_registration_guards (reg : Registry) (wf : Workflow) :
    ((registerWorkflow reg wf).2 = none ↔ ¬registrationFault wf) ∧
    ((registerWorkflow reg wf).2 = none →
      getWorkflow (registerWorkflow reg wf).1 wf.name = some wf) := by
  constructor
  · rw [registerWorkflow, registrationFault]
    by_cases hn : wf.name = []
    · simp [hn]
    · rw [if_neg hn]
      have hval := (validateSteps_eq_none_iff wf.name wf.steps []).trans
        (stepsSpec_iff wf.steps [])
      constructor
      · intro h
        have hnone : validateSteps wf.name [] wf.steps = none := by
          cases hv : validateSteps wf.name [] wf.steps with
          | none => rfl
          | some e => rw [hv] at h; exact absurd h (by simp)
        obtain ⟨hall, hnd, -, hidx⟩ := hval.mp hnone
        push_neg
        refine ⟨hn, ?_, hnd, ?_, ?_⟩
        · intro s hs
          exact (hall s hs).1
        · intro s hs
          exact ⟨(hall s hs).2.1, (hall s hs).2.2⟩
        · intro i hi pid hpid
          have := hidx i hi pid hpid
          rcases this with h2 | h2
          · exact absurd h2 (List.not_mem_nil pid)
          · exact h2
      · intro h
        push_neg at h
        obtain ⟨-, hids, hnd, hsvc, hidx⟩ := h
        have hnone : validateSteps wf.name [] wf.steps = none := by
          rw [hval]
          refine ⟨?_, hnd, ?_, ?_⟩
          · intro s hs
            exact ⟨hids s hs, (hsvc s hs).1, (hsvc s hs).2⟩
          · intro s _
            exact List.not_mem_nil _
          · intro i hi pid hpid
            exact Or.inr (hidx i hi pid hpid)
        rw [hnone]
  · intro h
    rw [registerWorkflow] at h ⊢
    by_cases hn : wf.name = []
    · rw [if_pos hn] at h
      exact absurd h (by simp)
    · rw [if_neg hn] at h ⊢
      cases hv : validateSteps wf.name [] wf.steps with
      | some e =>
        rw [hv] at h
        exact Option.noConfusion h
      | none => simp [getWorkflow, lookupL]

/-! ## Claim C4: loop steps -/

theorem executeLoopIter_ok (exec : ExecOracle) (s : WorkflowStep) (vars : AList) :
    ∀ (es2 : List GoVal) (k : Nat) (acc : List StepExecutionResult) (r : Nat → AList),
      (∀ j, ∀ h : j < es2.length,
        execStepOnce exec (iterStepAt s (k + j)) (iterVarsAt s vars (es2.get ⟨j, h⟩) (k + j)) =
          ⟨(iterStepAt s (k + j)).id, r (k + j), none⟩) →
      executeLoopIter exec s vars k es2 acc =
        (acc ++ (List.range es2.length).map
          (fun j => ⟨(iterStepAt s (k + j)).id, r (k + j), none⟩), none) := by
  intro es2
  induction es2 with
  | nil =>
    intro k acc r _
    simp [executeLoopIter]
  | cons item rest ih =>
    intro k acc r hiter
    have h0 : execStepOnce exec (iterStepAt s k) (iterVarsAt s vars item k) =
        ⟨(iterStepAt s k).id, r k, none⟩ := by
      have := hiter 0 (by simp)
      simpa using this
    rw [executeLoopIter, h0]
    dsimp only
    have hrec := ih (k + 1) (acc ++ [⟨(iterStepAt s k).id, r k, none⟩]) r
      (by
        intro j h
        have := hiter (j + 1) (by simpa using h)
        have harith : k + (j + 1) = k + 1 + j := by omega
        rw [harith] at this
        simpa using this)
    rw [hrec]
    refine congrArg (fun l => (l, (none : Option GoStr))) ?_
    rw [List.append_assoc, List.singleton_append, List.length_cons, List.range_succ_eq_map,
      List.map_cons, List.map_map]
    refine congrArg (fun l => acc ++ l) ?_
    refine congrArg₂ List.cons ?_ ?_
    · simp
    · apply List.map_congr_left
      intro j _
      have harith : k + 1 + j = k + (j + 1) := by omega
      simp [Function.comp, harith]

theorem appendCollected_not_mem (acc : List (GoStr × List GoVal)) (x : GoStr) (v : GoVal)
    (h : x ∉ acc.map Prod.fst) :
    appendCollected acc x v = acc ++ [(x, [v])] := by
  induction acc with
  | nil => rfl
  | cons p rest ih =>
    obtain ⟨k, vs⟩ := p
    rw [List.map_cons, List.mem_cons, not_or] at h
    rw [appendCollected, if_neg (fun hc => h.1 hc.symm), ih h.2]
    rfl

theorem appendCollected_append (done acc : List (GoStr × List GoVal)) (x : GoStr) (v : GoVal)
    (h : x ∉ done.map Prod.fst) :
    appendCollected (done ++ acc) x v = done ++ appendCollected acc x v := by
  induction done with
  | nil => rfl
  | cons p rest ih =>
    obtain ⟨k, vs⟩ := p
    rw [List.map_cons, List.mem_cons, not_or] at h
    rw [List.cons_append, appendCollected, if_neg (fun hc => h.1 hc.symm), ih h.2]
    rfl

theorem collectMappingOne_new (res : AList) (w : (GoStr × GoStr) → GoVal) :
    ∀ (ms : List (GoStr × GoStr)) (done : List (GoStr × List GoVal)),
      (∀ fx ∈ ms, extractValue res fx.1 = some (w fx)) →
      (ms.map Prod.snd).Nodup →
      (∀ fx ∈ ms, fx.2 ∉ done.map Prod.fst) →
      collectMappingOne ms res done = done ++ ms.map (fun fx => (fx.2, [w fx])) := by
  intro ms
  induction ms with
  | nil =>
    intro done _ _ _
    simp [collectMappingOne]
  | cons fx1 ms2 ih =>
    intro done hex hnd hdone
    rw [List.map_cons, List.nodup_cons] at hnd
    simp only [collectMappingOne, List.foldl_cons, hex fx1 (List.mem_cons_self _ _),
      List.map_cons]
    rw [appendCollected_not_mem _ _ _ (hdone fx1 (List.mem_cons_self _ _))]
    have hmain := ih (done ++ [(fx1.2, [w fx1])])
      (fun fx hfx => hex fx (List.mem_cons_of_mem _ hfx))
      hnd.2
      (by
        intro fx hfx
        rw [List.map_append, List.mem_append, not_or]
        refine ⟨hdone fx (List.mem_cons_of_mem _ hfx), ?_⟩
        intro hc
        rcases List.mem_map.mp hc with ⟨p, hp, hpc⟩
        rcases List.mem_singleton.mp hp with rfl
        exact hnd.1 (List.mem_map.mpr ⟨fx, hfx, by rw [← hpc]⟩))
    simp only [collectMappingOne] at hmain
    rw [hmain]
    simp

theorem collectMappingOne_update (res : AList) (w : (GoStr × GoStr) → GoVal) :
    ∀ (ms : List (GoStr × GoStr)) (done : List (GoStr × List GoVal))
      (L : (GoStr × GoStr) → List GoVal),
      (∀ fx ∈ ms, extractValue res fx.1 = some (w fx)) →
      (ms.map Prod.snd).Nodup →
      (∀ fx ∈ ms, fx.2 ∉ done.map Prod.fst) →
      collectMappingOne ms res (done ++ ms.map (fun fx => (fx.2, L fx))) =
        done ++ ms.map (fun fx => (fx.2, L fx ++ [w fx])) := by
  intro ms
  induction ms with
  | nil =>
    intro done L _ _ _
    simp [collectMappingOne]
  | cons fx1 ms2 ih =>
    intro done L hex hnd hdone
    rw [List.map_cons, List.nodup_cons] at hnd
    simp only [collectMappingOne, List.foldl_cons, hex fx1 (List.mem_cons_self _ _),
      List.map_cons]
    have hstep : appendCollected (done ++ (fx1.2, L fx1) :: ms2.map (fun fx => (fx.2, L fx)))
        fx1.2 (w fx1) =
        (done ++ [(fx1.2, L fx1 ++ [w fx1])]) ++ ms2.map (fun fx => (fx.2, L fx)) := by
      rw [appendCollected_append _ _ _ _ (hdone fx1 (List.mem_cons_self _ _))]
      rw [appendCollected, if_pos rfl]
      simp
    rw [hstep]
    have hmain := ih (done ++ [(fx1.2, L fx1 ++ [w fx1])]) L
      (fun fx hfx => hex fx (List.mem_cons_of_mem _ hfx))
      hnd.2
      (by
        intro fx hfx
        rw [List.map_append, List.mem_append, not_or]
        refine ⟨hdone fx (List.mem_cons_of_mem _ hfx), ?_⟩
        intro hc
        rcases List.mem_map.mp hc with ⟨p, hp, hpc⟩
        rcases List.mem_singleton.mp hp with rfl
        exact hnd.1 (List.mem_map.mpr ⟨fx, hfx, by rw [← hpc]⟩))
    simp only [collectMappingOne] at hmain
    rw [hmain]
    simp

theorem collect_fold_shape (ms : List (GoStr × GoStr)) :
    ∀ (rs : List StepExecutionResult) (L : (GoStr × GoStr) → List GoVal)
      (w : (GoStr × GoStr) → Nat → GoVal),
      (∀ fx ∈ ms, ∀ j, ∀ h : j < rs.length,
        extractValue (rs.get ⟨j, h⟩).result fx.1 = some (w fx j)) →
      (ms.map Prod.snd).Nodup →
      rs.foldl (fun acc r => collectMappingOne ms r.result acc)
          (ms.map (fun fx => (fx.2, L fx))) =
        ms.map (fun fx => (fx.2, L fx ++ (List.range rs.length).map (w fx))) := by
  intro rs
  induction rs with
  | nil =>
    intro L w _ _
    simp
  | cons r1 rs2 ih =>
    intro L w hex hnd
    rw [List.foldl_cons]
    have h1 : collectMappingOne ms r1.result (ms.map (fun fx => (fx.2, L fx))) =
        ms.map (fun fx => (fx.2, L fx ++ [w fx 0])) := by
      have := collectMappingOne_update r1.result (fun fx => w fx 0) ms [] L
        (fun fx hfx => by
          have := hex fx hfx 0 (by simp)
          simpa using this)
        hnd (by simp)
      simpa using this
    rw [h1]
    have h2 := ih (fun fx => L fx ++ [w fx 0]) (fun fx j => w fx (j + 1))
      (by
        intro fx hfx j h
        have := hex fx hfx (j + 1) (by simpa using h)
        simpa using this)
      hnd
    rw [h2]
    apply List.map_congr_left
    intro fx _
    simp only [List.length_cons, List.range_succ_eq_map, List.map_cons, List.map_map,
      List.append_assoc, List.singleton_append]
    rfl

theorem loopStore_vars :
    ∀ (lrs : List StepExecutionResult) (st : ExecState),
      (lrs.foldl (fun acc r => storeStepResult (markExecuted acc r.stepID) r.stepID r.result)
        st).vars = st.vars := by
  intro lrs
  induction lrs with
  | nil => intro st; rfl
  | cons r rest ih => intro st; rw [List.foldl_cons, ih]; rfl

theorem lookupL_foldl_setKey_not_mem (vars : AList) (x : GoStr) :
    ∀ (collected : List (GoStr × List GoVal)),
      x ∉ collected.map Prod.fst →
      lookupL (collected.foldl (fun vs kv => setKey vs kv.1 (.varr kv.2)) vars) x =
        lookupL vars x := by
  intro collected
  induction collected generalizing vars with
  | nil => intro _; rfl
  | cons p rest ih =>
    obtain ⟨k, a⟩ := p
    intro h
    rw [List.map_cons, List.mem_cons, not_or] at h
    rw [List.foldl_cons, ih _ h.2]
    rw [setKey, lookupL, if_neg (fun hc => h.1 hc.symm)]

theorem lookupL_foldl_setKey (x : GoStr) (arr : List GoVal) :
    ∀ (collected : List (GoStr × List GoVal)) (vars : AList),
      (collected.map Prod.fst).Nodup →
      (x, arr) ∈ collected →
      lookupL (collected.foldl (fun vs kv => setKey vs kv.1 (.varr kv.2)) vars) x =
        some (.varr arr) := by
  intro collected
  induction collected with
  | nil =>
    intro vars _ hmem
    exact absurd hmem (List.not_mem_nil _)
  | cons p rest ih =>
    intro vars hnd hmem
    obtain ⟨k, a⟩ := p
    rw [List.map_cons, List.nodup_cons] at hnd
    rcases List.mem_cons.mp hmem with heq | hmem2
    · obtain ⟨rfl, rfl⟩ := Prod.mk.injEq .. ▸ heq
      rw [List.foldl_cons,
        lookupL_foldl_setKey_not_mem _ _ _ hnd.1]
      rw [setKey, lookupL, if_pos rfl]
    · exact ih _ hnd.2 hmem2

/-- **C4.** A loop step over a non-empty sequence whose every iteration
succeeds executes iteration `i` against the per-iteration scope binding
`loop_as` to the `i`-th element and `loop_as + "_index"` to `i`, with the
synthesized id `"<id>[<i>]"`, collecting the results in source order;
afterwards every result-mapping target variable in the outer scope holds
the array of per-iteration extracted values ordered by source index. -/
theorem claim_C4_loop_iterations_and_collection (exec : ExecOracle) (s : WorkflowStep)
    (st : ExecState) (es : List GoVal) (r : Nat → AList)
    (w : (GoStr × GoStr) → Nat → GoVal)
    (hlo : lookupL st.vars s.loopOver = some (.varr es))
    (hne : es ≠ [])
    (hiter : ∀ i, ∀ h : i < es.length,
      execStepOnce exec (iterStepAt s i) (iterVarsAt s st.vars (es.get ⟨i, h⟩) i) =
        ⟨(iterStepAt s i).id, r i, none⟩)
    (hnd : (s.resultMapping.map Prod.snd).Nodup)
    (hex : ∀ fx ∈ s.resultMapping, ∀ i, i < es.length →
      extractValue (r i) fx.1 = some (w fx i)) :
    executeLoopStep exec s st.vars =
      ((List.range es.length).map (fun i => ⟨(iterStepAt s i).id, r i, none⟩), none) ∧
    ∀ fx ∈ s.resultMapping,
      lookupL (applyLoopResults s st ((List.range es.length).map
          (fun i => ⟨(iterStepAt s i).id, r i, none⟩))).vars fx.2 =
        some (.varr ((List.range es.length).map (w fx))) := by
  constructor
  · have hiter0 := executeLoopIter_ok exec s st.vars es 0 [] r
      (by
        intro j h
        have := hiter j h
        simpa using this)
    rw [executeLoopStep, hlo]
    show executeLoopIter exec s st.vars 0 es [] = _
    simpa using hiter0
  · intro fx hfx
    have hlen : ((List.range es.length).map
        (fun i => (⟨(iterStepAt s i).id, r i, none⟩ : StepExecutionResult))).isEmpty = false := by
      have : es.length ≠ 0 := fun hc => hne (List.length_eq_zero.mp hc)
      cases hes : es.length with
      | zero => exact absurd hes this
      | succ n => simp [hes, List.range_succ_eq_map]
    rw [applyLoopResults]
    simp only [hlen, Bool.false_eq_true, if_false]
    have hcollect : collectLoopResults s.resultMapping
        ((List.range es.length).map (fun i => ⟨(iterStepAt s i).id, r i, none⟩)) =
        s.resultMapping.map (fun fx => (fx.2, (List.range es.length).map (w fx))) := by
      rw [collectLoopResults]
      obtain ⟨n, hn⟩ : ∃ n, es.length = n + 1 := by
        cases hes : es.length with
        | zero => exact absurd (List.length_eq_zero.mp hes) hne
        | succ n => exact ⟨n, rfl⟩
      rw [hn, List.range_succ_eq_map, List.map_cons, List.foldl_cons]
      have hfirst : collectMappingOne s.resultMapping (r 0) [] =
          s.resultMapping.map (fun fx => (fx.2, [w fx 0])) := by
        have := collectMappingOne_new (r 0) (fun fx => w fx 0) s.resultMapping []
          (fun fx2 hfx2 => hex fx2 hfx2 0 (by omega)) hnd (by simp)
        simpa using this
      rw [hfirst]
      have := collect_fold_shape s.resultMapping
        (((List.range n).map Nat.succ).map (fun i => ⟨(iterStepAt s i).id, r i, none⟩))
        (fun fx => [w fx 0]) (fun fx j => w fx (j + 1))
        (by
          intro fx2 hfx2 j h
          have hj : j < n := by simpa using h
          have hget : ((((List.range n).map Nat.succ).map
              (fun i => (⟨(iterStepAt s i).id, r i, none⟩ : StepExecutionResult))).get
                ⟨j, h⟩).result = r (j + 1) := by
            rw [List.get_map]
            have : ((List.range n).map Nat.succ).get
                ⟨j, by simpa using h⟩ = j + 1 := by
              rw [List.get_map]
              simp [List.get_range]
            rw [this]
          rw [hget]
          exact hex fx2 hfx2 (j + 1) (by omega))
        hnd
      rw [this]
      apply List.map_congr_left
      intro fx2 _
      simp [List.length_map, List.length_range, List.map_map, Function.comp,
        Nat.succ_eq_add_one, List.singleton_append]
    rw [hcollect]
    rw [loopStore_vars]
    exact lookupL_foldl_setKey fx.2 ((List.range es.length).map (w fx)) _ st.vars
      (by
        rw [List.map_map]
        have : (fun p => ((fun fx => (fx.2, (List.range es.length).map (w fx))) p).1) =
            fun p : GoStr × GoStr => p.2 := rfl
        rw [show ((fun x => Prod.fst x) ∘
            fun fx => (fx.2, (List.range es.length).map (w fx))) =
            (fun p : GoStr × GoStr => p.2) from rfl]
        exact hnd)
      (List.mem_map.mpr ⟨fx, hfx, rfl⟩)

/-- Witness for C4: a loop over `[1, 2]` echoing the element back,
collected into `res` in order. -/
theorem claim_C4_witness :
    executeLoopStep
      (fun _ _ params =>
        match lookupL params "x".data with
        | some v => .ok [("out".data, v)]
        | none => .error "missing".data)
      ⟨"L".data, [], "svc".data, "act".data, [], [("x".data, "cur".data)],
        [("out".data, "res".data)], none, [], [], 0, 0, "items".data, "cur".data⟩
      [("items".data, .varr [.vint 1, .vint 2])] =
      ((List.range 2).map (fun i =>
        ⟨(iterStepAt
            ⟨"L".data, [], "svc".data, "act".data, [], [("x".data, "cur".data)],
              [("out".data, "res".data)], none, [], [], 0, 0, "items".data, "cur".data⟩ i).id,
          [("out".data, .vint (i + 1))], none⟩), none) ∧
    lookupL (applyLoopResults
        ⟨"L".data, [], "svc".data, "act".data, [], [("x".data, "cur".data)],
          [("out".data, "res".data)], none, [], [], 0, 0, "items".data, "cur".data⟩
        ⟨[], [], [("items".data, .varr [.vint 1, .vint 2])]⟩
        ((List.range 2).map (fun i =>
          ⟨(iterStepAt
              ⟨"L".data, [], "svc".data, "act".data, [], [("x".data, "cur".data)],
                [("out".data, "res".data)], none, [], [], 0, 0, "items".data, "cur".data⟩ i).id,
            [("out".data, .vint (i + 1))], none⟩))).vars "res".data =
      some (.varr ((List.range 2).map (fun i => .vint (i + 1)))) := by
  have h := claim_C4_loop_iterations_and_collection
    (fun _ _ params =>
      match lookupL params "x".data with
      | some v => .ok [("out".data, v)]
      | none => .error "missing".data)
    ⟨"L".data, [], "svc".data, "act".data, [], [("x".data, "cur".data)],
      [("out".data, "res".data)], none, [], [], 0, 0, "items".data, "cur".data⟩
    ⟨[], [], [("items".data, .varr [.vint 1, .vint 2])]⟩
    [.vint 1, .vint 2]
    (fun i => [("out".data, .vint (i + 1))])
    (fun _ i => .vint (i + 1))
    rfl
    (List.cons_ne_nil _ _)
    (by
      intro i h
      have h2 : i < 2 := by simpa using h
      interval_cases i <;> rfl)
    (by decide)
    (by
      intro fx hfx i hi
      rcases List.mem_singleton.mp hfx with rfl
      have h2 : i < 2 := by simpa using hi
      interval_cases i <;> rfl)
  exact ⟨h.1, h.2 ("out".data, "res".data) (List.mem_singleton.mpr rfl)⟩

/-- Counterexample to C3 as stated: a step whose `parallel_with` names
its own id — an id **not** defined by any earlier step — is accepted
(and stored), where the claim requires an error. -/
theorem claim_C3_counterexample :
    (registerWorkflow []
      ⟨"w".data, [],
        [⟨"s1".data, [], "svc".data, "act".data, [], [], [], none, ["s1".data],
          [], 0, 0, [], []⟩], [], []⟩).2 = none ∧
    ("s1".data ∈ ["s1".data] ∧
      "s1".data ∉
        ((([⟨"s1".data, [], "svc".data, "act".data, [], [], [], none, ["s1".data],
          [], 0, 0, [], []⟩] : List WorkflowStep).take 0).map (·.id))) := by
  refine ⟨rfl, by decide, by decide⟩

/-! ## String lemmas: splitting and joining on the segment separator -/

theorem joinSep_single (c : Char) (s : GoStr) : joinSep c [s] = s := rfl

theorem joinSep_cons_ne (c : Char) (s : GoStr) (ls : List GoStr) (h : ls ≠ []) :
    joinSep c (s :: ls) = s ++ c :: joinSep c ls := by
  cases ls with
  | nil => exact absurd rfl h
  | cons a as => rfl

theorem splitOnChar_ne_nil (c : Char) : ∀ s : GoStr, splitOnChar c s ≠ [] := by
  intro s
  induction s with
  | nil => simp [splitOnChar]
  | cons x xs ih =>
    rw [splitOnChar]
    cases h : splitOnChar c xs with
    | nil => simp
    | cons s2 rest => by_cases hx : x = c <;> simp [hx]

theorem joinSep_splitOnChar (c : Char) : ∀ s : GoStr, joinSep c (splitOnChar c s) = s := by
  intro s
  induction s with
  | nil => rfl
  | cons x xs ih =>
    rw [splitOnChar]
    cases h : splitOnChar c xs with
    | nil => exact absurd h (splitOnChar_ne_nil c xs)
    | cons s2 rest =>
      rw [h] at ih
      dsimp only
      by_cases hx : x = c
      · subst hx
        rw [if_pos rfl, joinSep_cons_ne _ _ _ (by simp), List.nil_append, ih]
      · rw [if_neg hx]
        cases rest with
        | nil =>
          rw [joinSep_single] at ih ⊢
          rw [ih]
        | cons r rs =>
          rw [joinSep_cons_ne _ _ _ (by simp)] at ih ⊢
          rw [List.cons_append, ih]

theorem not_mem_of_mem_splitOnChar (c : Char) :
    ∀ (s pc : GoStr), pc ∈ splitOnChar c s → c ∉ pc := by
  intro s
  induction s with
  | nil =>
    intro pc hm
    rw [splitOnChar, List.mem_singleton] at hm
    subst hm
    exact List.not_mem_nil c
  | cons x xs ih =>
    intro pc hm
    rw [splitOnChar] at hm
    cases h : splitOnChar c xs with
    | nil => exact absurd h (splitOnChar_ne_nil c xs)
    | cons s2 rest =>
      rw [h] at hm
      dsimp only at hm
      by_cases hx : x = c
      · rw [if_pos hx] at hm
        rcases List.mem_cons.mp hm with rfl | hm2
        · exact List.not_mem_nil c
        · exact ih pc (h ▸ hm2)
      · rw [if_neg hx] at hm
        rcases List.mem_cons.mp hm with rfl | hm2
        · intro hc
          rcases List.mem_cons.mp hc with rfl | hc2
          · exact hx rfl
          · exact ih s2 (h ▸ List.mem_cons_self _ _) hc2
        · exact ih pc (h ▸ List.mem_cons_of_mem _ hm2)

theorem splitOnChar_no_sep (c : Char) :
    ∀ s : GoStr, c ∉ s → splitOnChar c s = [s] := by
  intro s
  induction s with
  | nil => intro _; rfl
  | cons x xs ih =>
    intro h
    rw [List.mem_cons, not_or] at h
    rw [splitOnChar, ih h.2]
    dsimp only
    rw [if_neg (fun hc => h.1 hc.symm)]

theorem splitOnChar_append_sep (c : Char) :
    ∀ (l t : GoStr), c ∉ l → splitOnChar c (l ++ c :: t) = l :: splitOnChar c t := by
  intro l
  induction l with
  | nil =>
    intro t _
    rw [List.nil_append, splitOnChar]
    cases h : splitOnChar c t with
    | nil => exact absurd h (splitOnChar_ne_nil c t)
    | cons s2 rest =>
      dsimp only
      rw [if_pos rfl]
  | cons x l2 ih =>
    intro t h
    rw [List.mem_cons, not_or] at h
    rw [List.cons_append, splitOnChar, ih t h.2]
    dsimp only
    rw [if_neg (fun hc => h.1 hc.symm)]

theorem splitOnChar_joinSep (c : Char) :
    ∀ ls : List GoStr, ls ≠ [] → (∀ l ∈ ls, c ∉ l) →
      splitOnChar c (joinSep c ls) = ls := by
  intro ls
  induction ls with
  | nil => intro h _; exact absurd rfl h
  | cons l rest ih =>
    intro _ hmem
    cases rest with
    | nil =>
      rw [joinSep_single]
      exact splitOnChar_no_sep c l (hmem l (List.mem_singleton.mpr rfl))
    | cons l2 rs =>
      rw [joinSep_cons_ne _ _ _ (by simp)]
      rw [splitOnChar_append_sep c l _ (hmem l (List.mem_cons_self _ _))]
      rw [ih (by simp) (fun x hx => hmem x (List.mem_cons_of_mem _ hx))]

/-! ## String lemmas: membership and substring containment -/

theorem mem_joinSep (c : Char) :
    ∀ (ls : List GoStr) (d : Char), d ∈ joinSep c ls → d = c ∨ ∃ l ∈ ls, d ∈ l := by
  intro ls
  induction ls with
  | nil =>
    intro d hd
    exact absurd hd (List.not_mem_nil d)
  | cons l rest ih =>
    intro d hd
    cases rest with
    | nil =>
      rw [joinSep_single] at hd
      exact Or.inr ⟨l, List.mem_singleton.mpr rfl, hd⟩
    | cons l2 rs =>
      rw [joinSep_cons_ne _ _ _ (by simp)] at hd
      rcases List.mem_append.mp hd with h | h
      · exact Or.inr ⟨l, List.mem_cons_self _ _, h⟩
      · rcases List.mem_cons.mp h with rfl | h2
        · exact Or.inl rfl
        · rcases ih d h2 with h3 | ⟨l3, hl3, hd3⟩
          · exact Or.inl h3
          · exact Or.inr ⟨l3, List.mem_cons_of_mem _ hl3, hd3⟩

theorem containsSubL_eq_false_of_head_not_mem (ch : Char) (t : GoStr) :
    ∀ s : GoStr, ch ∉ s → containsSubL (ch :: t) s = false := by
  intro s
  induction s with
  | nil => intro _; rfl
  | cons d rest ih =>
    intro h
    rw [List.mem_cons, not_or] at h
    rw [containsSubL, ih h.2, Bool.or_false]
    rw [List.isPrefixOf]
    have hne : (ch == d) = false := by
      rw [beq_eq_false_iff_ne]
      exact h.1
    rw [hne, Bool.false_and]

theorem containsSubL_here (m : GoStr) : ∀ y : GoStr, containsSubL m (m ++ y) = true := by
  intro y
  cases m with
  | nil =>
    cases y with
    | nil => rfl
    | cons c rest => simp [containsSubL, List.isPrefixOf]
  | cons a as =>
    rw [List.cons_append, containsSubL]
    have hpre : (a :: as).isPrefixOf ((a :: as) ++ y) = true := by
      rw [List.isPrefixOf_iff_prefix]
      exact List.prefix_append _ _
    rw [List.cons_append] at hpre
    rw [hpre, Bool.true_or]

theorem containsSubL_intro (m : GoStr) :
    ∀ (x y : GoStr), containsSubL m (x ++ m ++ y) = true := by
  intro x
  induction x with
  | nil =>
    intro y
    rw [List.nil_append]
    exact containsSubL_here m y
  | cons d x2 ih =>
    intro y
    rw [List.cons_append, List.cons_append, containsSubL, ih y, Bool.or_true]

theorem containsSubL_append_left (m s1 : GoStr) :
    ∀ s2 : GoStr, containsSubL m s2 = true → containsSubL m (s1 ++ s2) = true := by
  induction s1 with
  | nil => intro s2 h; exact h
  | cons d rest ih =>
    intro s2 h
    rw [List.cons_append, containsSubL, ih s2 h, Bool.or_true]

theorem joinSep_decompose (c : Char) :
    ∀ (l1 : List GoStr) (pc : GoStr) (l2 : List GoStr),
      ∃ x y, joinSep c (l1 ++ pc :: l2) = x ++ pc ++ y := by
  intro l1
  induction l1 with
  | nil =>
    intro pc l2
    cases l2 with
    | nil => exact ⟨[], [], by simp [joinSep_single]⟩
    | cons a as =>
      refine ⟨[], c :: joinSep c (a :: as), ?_⟩
      rw [List.nil_append, joinSep_cons_ne _ _ _ (by simp)]
      rfl
  | cons a l1b ih =>
    intro pc l2
    obtain ⟨x, y, hxy⟩ := ih pc l2
    refine ⟨a ++ c :: x, y, ?_⟩
    rw [List.cons_append, joinSep_cons_ne _ _ _ (by simp), hxy]
    simp

/-! ## Lemmas about replaceAll -/

theorem replaceAllAux_nil (pat rep : GoStr) : ∀ fuel, replaceAllAux pat rep fuel [] = [] := by
  intro fuel
  cases fuel <;> rfl

theorem replaceAllAux_irrel (pat rep : GoStr) (hp : pat ≠ []) :
    ∀ (fuel1 fuel2 : Nat) (s : GoStr), s.length ≤ fuel1 → s.length ≤ fuel2 →
      replaceAllAux pat rep fuel1 s = replaceAllAux pat rep fuel2 s := by
  intro fuel1
  induction fuel1 using Nat.strong_induction_on with
  | _ fuel1 ih =>
    intro fuel2 s h1 h2
    cases s with
    | nil => rw [replaceAllAux_nil, replaceAllAux_nil]
    | cons ch rest =>
      cases fuel1 with
      | zero => simp at h1
      | succ f1 =>
        cases fuel2 with
        | zero => simp at h2
        | succ f2 =>
          rw [List.length_cons] at h1 h2
          have hb1 : rest.length ≤ f1 := by omega
          have hb2 : rest.length ≤ f2 := by omega
          rw [replaceAllAux, replaceAllAux]
          by_cases hpre : pat.isPrefixOf (ch :: rest) = true
          · rw [if_pos hpre, if_pos hpre]
            congr 1
            have hlen : ((ch :: rest).drop pat.length).length ≤ rest.length := by
              rw [List.length_drop]
              cases pat with
              | nil => exact absurd rfl hp
              | cons p ps => rw [List.length_cons, List.length_cons]; omega
            exact ih f1 (Nat.lt_succ_self f1) f2 _ (le_trans hlen hb1) (le_trans hlen hb2)
          · rw [if_neg hpre, if_neg hpre]
            congr 1
            exact ih f1 (Nat.lt_succ_self f1) f2 rest hb1 hb2

theorem replaceAllL_eq_aux (p : Char) (ps rep s : GoStr) :
    replaceAllL (p :: ps) rep s = replaceAllAux (p :: ps) rep s.length s := rfl

theorem replaceAllL_nil (p : Char) (ps rep : GoStr) : replaceAllL (p :: ps) rep [] = [] := rfl

theorem replaceAllL_cons_not (p : Char) (ps rep : GoStr) (c : Char) (s : GoStr)
    (hpre : (p :: ps).isPrefixOf (c :: s) = false) :
    replaceAllL (p :: ps) rep (c :: s) = c :: replaceAllL (p :: ps) rep s := by
  rw [replaceAllL_eq_aux, replaceAllL_eq_aux, List.length_cons, replaceAllAux,
    if_neg (fun hc => Bool.noConfusion (hpre ▸ hc))]

theorem replaceAllL_matched (p : Char) (ps rep s : GoStr) :
    replaceAllL (p :: ps) rep ((p :: ps) ++ s) = rep ++ replaceAllL (p :: ps) rep s := by
  have hpre : (p :: ps).isPrefixOf ((p :: ps) ++ s) = true := by
    rw [List.isPrefixOf_iff_prefix]
    exact List.prefix_append _ _
  rw [replaceAllL_eq_aux, List.cons_append, List.length_cons, replaceAllAux]
  rw [← List.cons_append, if_pos hpre, List.drop_left]
  congr 1
  rw [replaceAllL_eq_aux]
  apply replaceAllAux_irrel _ _ (by simp)
  · rw [List.length_append]
    omega
  · exact le_refl _

theorem isPrefixOf_cons_false (a c : Char) (as cs : GoStr) (h : a ≠ c) :
    (a :: as).isPrefixOf (c :: cs) = false := by
  rw [List.isPrefixOf]
  have hne : (a == c) = false := by
    rw [beq_eq_false_iff_ne]
    exact h
  rw [hne, Bool.false_and]

theorem replaceAllL_braceFree (t rep : GoStr) :
    ∀ s : GoStr, '{' ∉ s → replaceAllL ('{' :: t) rep s = s := by
  intro s
  induction s with
  | nil => intro _; rfl
  | cons c rest ih =>
    intro h
    rw [List.mem_cons, not_or] at h
    rw [replaceAllL_cons_not '{' t rep c rest (isPrefixOf_cons_false '{' c t rest h.1), ih h.2]

theorem replaceAllL_append_braceFree (t rep : GoStr) :
    ∀ (s1 s2 : GoStr), '{' ∉ s1 →
      replaceAllL ('{' :: t) rep (s1 ++ s2) = s1 ++ replaceAllL ('{' :: t) rep s2 := by
  intro s1
  induction s1 with
  | nil => intro s2 _; rfl
  | cons c rest ih =>
    intro s2 h
    rw [List.mem_cons, not_or] at h
    rw [List.cons_append,
      replaceAllL_cons_not '{' t rep c (rest ++ s2) (isPrefixOf_cons_false '{' c t (rest ++ s2) h.1),
      ih s2 h.2]
    rfl

/-! ## Lemmas about placeholder shapes -/

theorem cleanName_spec (n : GoStr) (h : cleanName n = true) :
    ∀ c ∈ n, c ≠ '{' ∧ c ≠ '}' ∧ c ≠ '/' ∧ c ≠ '?' := by
  intro c hc
  rw [cleanName, List.all_eq_true] at h
  have hcc := h c hc
  simp only [Bool.and_eq_true, Bool.not_eq_true', beq_eq_false_iff_ne] at hcc
  exact ⟨hcc.1.1.1, hcc.1.1.2, hcc.1.2, hcc.2⟩

theorem braceFreeB_spec (s : GoStr) (h : braceFreeB s = true) :
    ∀ c ∈ s, c ≠ '{' ∧ c ≠ '}' := by
  intro c hc
  rw [braceFreeB, List.all_eq_true] at h
  have hcc := h c hc
  simp only [Bool.and_eq_true, Bool.not_eq_true', beq_eq_false_iff_ne] at hcc
  exact hcc

theorem phSeg_cons (n : GoStr) (o : Bool) :
    phSeg n o = '{' :: '{' :: (n ++ (if o then '?' :: phClose else phClose)) := by
  rw [phSeg, phOpen]
  rfl

theorem phSeg_sufStr_head (o : Bool) :
    ∃ x rest2, (if o then '?' :: phClose else phClose) = x :: rest2 ∧ (x = '}' ∨ x = '?') := by
  cases o with
  | false => exact ⟨'}', ['}'], rfl, Or.inl rfl⟩
  | true => exact ⟨'?', phClose, rfl, Or.inr rfl⟩

theorem append_eq_names :
    ∀ (n m a b : GoStr), n ++ a = m ++ b →
      (∀ c ∈ n, c ≠ '}' ∧ c ≠ '?') → (∀ c ∈ m, c ≠ '}' ∧ c ≠ '?') →
      (∃ x, a.head? = some x ∧ (x = '}' ∨ x = '?')) →
      (∃ x, b.head? = some x ∧ (x = '}' ∨ x = '?')) →
      n = m := by
  intro n
  induction n with
  | nil =>
    intro m a b h _ hm ha _
    cases m with
    | nil => rfl
    | cons d m2 =>
      obtain ⟨x, hx, hstop⟩ := ha
      rw [List.nil_append] at h
      rw [h] at hx
      rw [List.cons_append, List.head?_cons] at hx
      obtain rfl := Option.some.injEq .. ▸ hx
      rcases hstop with rfl | rfl
      · exact absurd rfl (hm _ (List.mem_cons_self _ _)).1
      · exact absurd rfl (hm _ (List.mem_cons_self _ _)).2
  | cons c n2 ih =>
    intro m a b h hn hm ha hb
    cases m with
    | nil =>
      obtain ⟨x, hx, hstop⟩ := hb
      rw [List.nil_append] at h
      rw [← h, List.cons_append, List.head?_cons] at hx
      obtain rfl := Option.some.injEq .. ▸ hx
      rcases hstop with rfl | rfl
      · exact absurd rfl (hn _ (List.mem_cons_self _ _)).1
      · exact absurd rfl (hn _ (List.mem_cons_self _ _)).2
    | cons d m2 =>
      rw [List.cons_append, List.cons_append, List.cons.injEq] at h
      rw [h.1]
      rw [ih m2 a b h.2 (fun x hx => hn x (List.mem_cons_of_mem _ hx))
        (fun x hx => hm x (List.mem_cons_of_mem _ hx)) ha hb]

theorem phSeg_isPrefixOf_inv (n m : GoStr) (o1 o2 : Bool) (s : GoStr)
    (hn : cleanName n = true) (hm : cleanName m = true)
    (hpre : (phSeg n o1).isPrefixOf (phSeg m o2 ++ s) = true) : n = m ∧ o1 = o2 := by
  rw [List.isPrefixOf_iff_prefix] at hpre
  obtain ⟨t, ht⟩ := hpre
  simp only [phSeg_cons, List.cons_append, List.cons.injEq, true_and, List.append_assoc] at ht
  have hmain := ht
  have hnames : n = m := by
    apply append_eq_names n m _ _ hmain
    · intro c hc
      exact ⟨(cleanName_spec n hn c hc).2.1, (cleanName_spec n hn c hc).2.2.2⟩
    · intro c hc
      exact ⟨(cleanName_spec m hm c hc).2.1, (cleanName_spec m hm c hc).2.2.2⟩
    · obtain ⟨x, r2, hr, hstop⟩ := phSeg_sufStr_head o1
      exact ⟨x, by rw [hr, List.cons_append, List.head?_cons], hstop⟩
    · obtain ⟨x, r2, hr, hstop⟩ := phSeg_sufStr_head o2
      exact ⟨x, by rw [hr, List.cons_append, List.head?_cons], hstop⟩
  refine ⟨hnames, ?_⟩
  subst hnames
  have hsuf := List.append_cancel_left hmain
  cases o1 with
  | false =>
    cases o2 with
    | false => rfl
    | true =>
      exfalso
      simp only [if_neg (by decide : ¬(false = true)), if_pos rfl, phClose,
        List.cons_append, List.nil_append] at hsuf
      injection hsuf with h1 _
      exact absurd h1 (by decide)
  | true =>
    cases o2 with
    | true => rfl
    | false =>
      exfalso
      simp only [if_pos rfl, if_neg (by decide : ¬(false = true)), phClose,
        List.cons_append, List.nil_append] at hsuf
      injection hsuf with h1 _
      exact absurd h1 (by decide)

theorem phSeg_inj (n m : GoStr) (o1 o2 : Bool)
    (hn : cleanName n = true) (hm : cleanName m = true)
    (h : phSeg n o1 = phSeg m o2) : n = m ∧ o1 = o2 := by
  apply phSeg_isPrefixOf_inv n m o1 o2 [] hn hm
  rw [List.append_nil, h, List.isPrefixOf_iff_prefix]

/-! ## Trimming and parsing of placeholder segments -/

theorem hasPrefixL_append (pat x : GoStr) : hasPrefixL pat (pat ++ x) = true := by
  rw [hasPrefixL, List.isPrefixOf_iff_prefix]
  exact List.prefix_append _ _

theorem hasSuffixL_append (pat y : GoStr) : hasSuffixL pat (y ++ pat) = true := by
  rw [hasSuffixL, List.isSuffixOf_iff_suffix]
  exact List.suffix_append _ _

theorem trimPrefixL_append (pat x : GoStr) : trimPrefixL pat (pat ++ x) = x := by
  rw [trimPrefixL, if_pos (hasPrefixL_append pat x)]
  exact List.drop_left pat x

theorem trimSuffixL_append (pat x : GoStr) : trimSuffixL pat (x ++ pat) = x := by
  rw [trimSuffixL, if_pos (hasSuffixL_append pat x), List.length_append]
  have h : x.length + pat.length - pat.length = x.length := by omega
  rw [h]
  exact List.take_left x pat

theorem hasSuffixL_q_clean (n : GoStr) (hn : cleanName n = true) :
    hasSuffixL ['?'] n = false := by
  cases h : hasSuffixL ['?'] n with
  | false => rfl
  | true =>
    exfalso
    rw [hasSuffixL, List.isSuffixOf_iff_suffix] at h
    obtain ⟨y, hy⟩ := h
    have hq : '?' ∈ n := by
      rw [← hy]
      exact List.mem_append_right _ (List.mem_singleton.mpr rfl)
    exact (cleanName_spec n hn '?' hq).2.2.2 rfl

theorem phSeg_eq_false (n : GoStr) : phSeg n false = (phOpen ++ n) ++ phClose := rfl

theorem phSeg_eq_true (n : GoStr) : phSeg n true = (phOpen ++ (n ++ ['?'])) ++ phClose := by
  rw [phSeg, if_pos rfl]
  simp [List.append_assoc]

theorem phSeg_trim (n : GoStr) (o : Bool) :
    trimPrefixL phOpen (trimSuffixL phClose (phSeg n o))
      = n ++ (if o then ['?'] else []) := by
  cases o with
  | false =>
    rw [phSeg_eq_false, trimSuffixL_append, trimPrefixL_append, if_neg (by decide : ¬(false = true)),
      List.append_nil]
  | true =>
    rw [phSeg_eq_true, trimSuffixL_append, trimPrefixL_append, if_pos rfl]

theorem hasPrefixL_phOpen_phSeg (n : GoStr) (o : Bool) :
    hasPrefixL phOpen (phSeg n o) = true := by
  cases o with
  | false => rw [phSeg_eq_false, List.append_assoc]; exact hasPrefixL_append phOpen _
  | true => rw [phSeg_eq_true, List.append_assoc]; exact hasPrefixL_append phOpen _

theorem hasSuffixL_phClose_phSeg (n : GoStr) (o : Bool) :
    hasSuffixL phClose (phSeg n o) = true := by
  cases o with
  | false => rw [phSeg_eq_false]; exact hasSuffixL_append phClose _
  | true => rw [phSeg_eq_true]; exact hasSuffixL_append phClose _

theorem parsePh_phSeg (n : GoStr) (o : Bool) (hn : cleanName n = true) :
    parsePh (phSeg n o) = some (n, o) := by
  rw [parsePh, hasPrefixL_phOpen_phSeg, hasSuffixL_phClose_phSeg, Bool.and_self, if_pos rfl]
  cases o with
  | false =>
    rw [phSeg_trim, if_neg (by decide : ¬(false = true)), List.append_nil]
    show (if hasSuffixL ['?'] n = true then some (trimSuffixL ['?'] n, true)
      else some (n, false)) = some (n, false)
    rw [hasSuffixL_q_clean n hn, if_neg (by decide : ¬(false = true))]
  | true =>
    rw [phSeg_trim, if_pos rfl]
    show (if hasSuffixL ['?'] (n ++ ['?']) = true then some (trimSuffixL ['?'] (n ++ ['?']), true)
      else some (n ++ ['?'], false)) = some (n, true)
    rw [hasSuffixL_append ['?'] n, if_pos rfl, trimSuffixL_append]

theorem parsePh_braceFree (pc : GoStr) (h : braceFreeB pc = true) : parsePh pc = none := by
  rw [parsePh]
  have hp : hasPrefixL phOpen pc = false := by
    cases hq : hasPrefixL phOpen pc with
    | false => rfl
    | true =>
      exfalso
      rw [hasPrefixL, List.isPrefixOf_iff_prefix] at hq
      obtain ⟨y, hy⟩ := hq
      have hb : '{' ∈ pc := by
        rw [← hy]
        exact List.mem_append_left _ (List.mem_cons_self _ _)
      exact (braceFreeB_spec pc h '{' hb).1 rfl
  rw [hp, Bool.false_and, if_neg (by decide : ¬(false = true))]

theorem braceFree_ne_phSeg (pc : GoStr) (h : braceFreeB pc = true) (n : GoStr) (o : Bool) :
    pc ≠ phSeg n o := by
  intro he
  have hb : '{' ∈ pc := by
    rw [he, phSeg_cons]
    exact List.mem_cons_self _ _
  exact (braceFreeB_spec pc h '{' hb).1 rfl

theorem parsePh_of_wf (pc : GoStr) (hwf : SegWellFormed pc) (n : GoStr) (o : Bool)
    (h : parsePh pc = some (n, o)) : pc = phSeg n o ∧ cleanName n = true := by
  rcases hwf with hbf | ⟨m, o2, rfl, hm⟩
  · rw [parsePh_braceFree pc hbf] at h
    exact absurd h (Option.noConfusion)
  · rw [parsePh_phSeg m o2 hm] at h
    obtain ⟨h1, h2⟩ := Prod.mk.injEq .. ▸ Option.some.injEq .. ▸ h
    rw [← h1, ← h2]
    exact ⟨rfl, hm⟩

/-! ## ReplaceAll over a joined list of well-formed pieces -/

theorem replaceAllL_phSeg_nil (n : GoStr) (o : Bool) (rep : GoStr) :
    replaceAllL (phSeg n o) rep [] = [] := by
  rw [phSeg_cons]
  exact replaceAllL_nil _ _ _

theorem replaceAllL_phSeg_self (n : GoStr) (o : Bool) (rep s : GoStr) :
    replaceAllL (phSeg n o) rep (phSeg n o ++ s) = rep ++ replaceAllL (phSeg n o) rep s := by
  rw [phSeg_cons]
  exact replaceAllL_matched '{' ('{' :: (n ++ (if o then '?' :: phClose else phClose))) rep s

theorem replaceAllL_braceFree_append (n : GoStr) (o : Bool) (rep pc s : GoStr)
    (hpc : braceFreeB pc = true) :
    replaceAllL (phSeg n o) rep (pc ++ s) = pc ++ replaceAllL (phSeg n o) rep s := by
  rw [phSeg_cons]
  apply replaceAllL_append_braceFree
  intro hc
  exact (braceFreeB_spec pc hpc '{' hc).1 rfl

theorem replaceAllL_sep (n : GoStr) (o : Bool) (rep s : GoStr) :
    replaceAllL (phSeg n o) rep ('/' :: s) = '/' :: replaceAllL (phSeg n o) rep s := by
  rw [phSeg_cons]
  exact replaceAllL_cons_not _ _ _ _ _ (isPrefixOf_cons_false '{' '/' _ _ (by decide))

theorem phBody_head_ne (m : GoStr) (o2 : Bool) (hm : cleanName m = true) (s : GoStr) :
    ∃ y ys, (m ++ (if o2 then '?' :: phClose else phClose)) ++ s = y :: ys ∧ y ≠ '{' := by
  cases m with
  | nil =>
    obtain ⟨x, r2, hr, hstop⟩ := phSeg_sufStr_head o2
    refine ⟨x, r2 ++ s, ?_, ?_⟩
    · rw [List.nil_append, hr, List.cons_append]
    · rcases hstop with rfl | rfl <;> decide
  | cons c m2 =>
    refine ⟨c, (m2 ++ (if o2 then '?' :: phClose else phClose)) ++ s, ?_, ?_⟩
    · rw [List.cons_append, List.cons_append]
    · exact (cleanName_spec _ hm c (List.mem_cons_self _ _)).1

theorem replaceAllL_phSeg_other (n m : GoStr) (o1 o2 : Bool) (rep s : GoStr)
    (hn : cleanName n = true) (hm : cleanName m = true)
    (hne : ¬(n = m ∧ o1 = o2)) :
    replaceAllL (phSeg n o1) rep (phSeg m o2 ++ s)
      = phSeg m o2 ++ replaceAllL (phSeg n o1) rep s := by
  have hp1 : (phSeg n o1).isPrefixOf (phSeg m o2 ++ s) = false := by
    cases hq : (phSeg n o1).isPrefixOf (phSeg m o2 ++ s) with
    | false => rfl
    | true => exact absurd (phSeg_isPrefixOf_inv n m o1 o2 s hn hm hq) hne
  obtain ⟨y, ys, hys, hyne⟩ := phBody_head_ne m o2 hm s
  have hmem : '{' ∉ (m ++ (if o2 then '?' :: phClose else phClose)) := by
    intro hc
    rcases List.mem_append.mp hc with hc1 | hc2
    · exact (cleanName_spec m hm _ hc1).1 rfl
    · revert hc2
      cases o2 <;> decide
  rw [phSeg_cons, phSeg_cons, List.cons_append, List.cons_append] at hp1 ⊢
  have hstep2 : ('{' :: '{' :: (n ++ (if o1 then '?' :: phClose else phClose))).isPrefixOf
      ('{' :: ((m ++ (if o2 then '?' :: phClose else phClose)) ++ s)) = false := by
    rw [List.isPrefixOf, hys,
      isPrefixOf_cons_false '{' y (n ++ (if o1 then '?' :: phClose else phClose)) ys
        (fun hc => hyne hc.symm),
      Bool.and_false]
  rw [replaceAllL_cons_not '{' ('{' :: (n ++ (if o1 then '?' :: phClose else phClose))) rep '{'
      ('{' :: ((m ++ (if o2 then '?' :: phClose else phClose)) ++ s)) hp1,
    replaceAllL_cons_not '{' ('{' :: (n ++ (if o1 then '?' :: phClose else phClose))) rep '{'
      ((m ++ (if o2 then '?' :: phClose else phClose)) ++ s) hstep2,
    replaceAllL_append_braceFree ('{' :: (n ++ (if o1 then '?' :: phClose else phClose))) rep
      (m ++ (if o2 then '?' :: phClose else phClose)) s hmem,
    List.cons_append, List.cons_append]

theorem replaceAllL_piece (n : GoStr) (o : Bool) (rep pc s : GoStr)
    (hn : cleanName n = true) (hpc : SegWellFormed pc) :
    replaceAllL (phSeg n o) rep (pc ++ s)
      = replacePc n o rep pc ++ replaceAllL (phSeg n o) rep s := by
  rcases hpc with hbf | ⟨m, o2, rfl, hm⟩
  · rw [replaceAllL_braceFree_append n o rep pc s hbf, replacePc,
      if_neg (braceFree_ne_phSeg pc hbf n o)]
  · by_cases he : (phSeg m o2 : GoStr) = phSeg n o
    · rw [he, replaceAllL_phSeg_self, replacePc, if_pos rfl]
    · rw [replaceAllL_phSeg_other n m o o2 rep s hn hm
        (fun hc => he (by rw [hc.1, hc.2])), replacePc, if_neg he]

theorem replaceAll_join (n : GoStr) (o : Bool) (rep : GoStr) (hn : cleanName n = true) :
    ∀ Q : List GoStr, (∀ pc ∈ Q, SegWellFormed pc) →
      replaceAllL (phSeg n o) rep (joinSep '/' Q)
        = joinSep '/' (Q.map (replacePc n o rep)) := by
  intro Q
  induction Q with
  | nil => intro _; exact replaceAllL_phSeg_nil n o rep
  | cons pc rest ih =>
    intro hwf
    cases rest with
    | nil =>
      rw [joinSep_single, List.map_cons, List.map_nil, joinSep_single]
      have hstep := replaceAllL_piece n o rep pc [] hn (hwf pc (List.mem_cons_self _ _))
      rw [List.append_nil] at hstep
      rw [hstep, replaceAllL_phSeg_nil, List.append_nil]
    | cons pc2 rs =>
      rw [joinSep_cons_ne _ _ _ (by simp),
        replaceAllL_piece n o rep pc _ hn (hwf pc (List.mem_cons_self _ _)),
        replaceAllL_sep, ih (fun x hx => hwf x (List.mem_cons_of_mem _ hx))]
      exact (joinSep_cons_ne '/' (replacePc n o rep pc)
        (List.map (replacePc n o rep) (pc2 :: rs)) (by simp)).symm

/-! ## Substring containment of a placeholder in a joined endpoint -/

theorem containsSubL_append_braceFree_left (t : GoStr) :
    ∀ (s1 s2 : GoStr), '{' ∉ s1 →
      containsSubL ('{' :: t) (s1 ++ s2) = containsSubL ('{' :: t) s2 := by
  intro s1
  induction s1 with
  | nil => intro s2 _; rfl
  | cons c rest ih =>
    intro s2 h
    rw [List.mem_cons, not_or] at h
    rw [List.cons_append, containsSubL,
      isPrefixOf_cons_false '{' c t (rest ++ s2) h.1, Bool.false_or, ih s2 h.2]

theorem containsSubL_phSeg_nil (n : GoStr) (o : Bool) :
    containsSubL (phSeg n o) [] = false := by
  rw [phSeg_cons]
  rfl

theorem containsSubL_phSeg_sep (n : GoStr) (o : Bool) (s : GoStr) :
    containsSubL (phSeg n o) ('/' :: s) = containsSubL (phSeg n o) s := by
  rw [phSeg_cons, containsSubL, isPrefixOf_cons_false '{' '/' _ _ (by decide), Bool.false_or]

theorem containsSubL_phSeg_piece (n : GoStr) (o : Bool) (pc s : GoStr)
    (hn : cleanName n = true) (hpc : SegWellFormed pc) (hne : pc ≠ phSeg n o) :
    containsSubL (phSeg n o) (pc ++ s) = containsSubL (phSeg n o) s := by
  rcases hpc with hbf | ⟨m, o2, rfl, hm⟩
  · rw [phSeg_cons]
    apply containsSubL_append_braceFree_left
    intro hc
    exact (braceFreeB_spec pc hbf '{' hc).1 rfl
  · have hp1 : (phSeg n o).isPrefixOf (phSeg m o2 ++ s) = false := by
      cases hq : (phSeg n o).isPrefixOf (phSeg m o2 ++ s) with
      | false => rfl
      | true =>
        obtain ⟨h1, h2⟩ := phSeg_isPrefixOf_inv n m o o2 s hn hm hq
        exact absurd (show phSeg m o2 = phSeg n o from by rw [h1, h2]) hne
    obtain ⟨y, ys, hys, hyne⟩ := phBody_head_ne m o2 hm s
    have hmem : '{' ∉ (m ++ (if o2 then '?' :: phClose else phClose)) := by
      intro hc
      rcases List.mem_append.mp hc with hc1 | hc2
      · exact (cleanName_spec m hm _ hc1).1 rfl
      · revert hc2
        cases o2 <;> decide
    rw [phSeg_cons, phSeg_cons, List.cons_append, List.cons_append] at hp1 ⊢
    rw [containsSubL, hp1, Bool.false_or, containsSubL]
    rw [List.isPrefixOf, hys,
      isPrefixOf_cons_false '{' y (n ++ (if o then '?' :: phClose else phClose)) ys
        (fun hc => hyne hc.symm),
      Bool.and_false, Bool.false_or, ← hys]
    exact containsSubL_append_braceFree_left ('{' :: (n ++ (if o then '?' :: phClose else phClose)))
      (m ++ (if o2 then '?' :: phClose else phClose)) s hmem

theorem containsSubL_phSeg_join_false (n : GoStr) (o : Bool) (hn : cleanName n = true) :
    ∀ Q : List GoStr, (∀ pc ∈ Q, SegWellFormed pc) → (∀ pc ∈ Q, pc ≠ phSeg n o) →
      containsSubL (phSeg n o) (joinSep '/' Q) = false := by
  intro Q
  induction Q with
  | nil => intro _ _; exact containsSubL_phSeg_nil n o
  | cons pc rest ih =>
    intro hwf hne
    cases rest with
    | nil =>
      rw [joinSep_single]
      have hstep := containsSubL_phSeg_piece n o pc [] hn (hwf pc (List.mem_cons_self _ _))
        (hne pc (List.mem_cons_self _ _))
      rw [List.append_nil] at hstep
      rw [hstep, containsSubL_phSeg_nil]
    | cons pc2 rs =>
      rw [joinSep_cons_ne _ _ _ (by simp),
        containsSubL_phSeg_piece n o pc _ hn (hwf pc (List.mem_cons_self _ _))
          (hne pc (List.mem_cons_self _ _)),
        containsSubL_phSeg_sep,
        ih (fun x hx => hwf x (List.mem_cons_of_mem _ hx))
          (fun x hx => hne x (List.mem_cons_of_mem _ hx))]

theorem containsSubL_join_of_mem (c : Char) (pc : GoStr) :
    ∀ Q : List GoStr, pc ∈ Q → containsSubL pc (joinSep c Q) = true := by
  intro Q hm
  obtain ⟨l1, l2, hq⟩ := List.append_of_mem hm
  obtain ⟨x, y, hxy⟩ := joinSep_decompose c l1 pc l2
  rw [hq, hxy]
  exact containsSubL_intro pc x y

/-! ## filterMap, removal and placeholder-name bookkeeping -/

theorem filterMap_congr_mem {α β : Type} (f g : α → Option β) :
    ∀ l : List α, (∀ a ∈ l, f a = g a) → l.filterMap f = l.filterMap g := by
  intro l
  induction l with
  | nil => intro _; rfl
  | cons a rest ih =>
    intro h
    rw [List.filterMap_cons, List.filterMap_cons, h a (List.mem_cons_self _ _),
      ih (fun x hx => h x (List.mem_cons_of_mem _ hx))]

theorem filterMap_eq_self_of {α : Type} (f : α → Option α) :
    ∀ l : List α, (∀ a ∈ l, f a = some a) → l.filterMap f = l := by
  intro l
  induction l with
  | nil => intro _; rfl
  | cons a rest ih =>
    intro h
    rw [List.filterMap_cons_some (h a (List.mem_cons_self _ _)),
      ih (fun x hx => h x (List.mem_cons_of_mem _ hx))]

theorem removeFirstEq_sublist (pat : GoStr) :
    ∀ l : List GoStr, List.Sublist (removeFirstEq pat l) l := by
  intro l
  induction l with
  | nil => exact List.Sublist.refl []
  | cons p rest ih =>
    rw [removeFirstEq]
    by_cases h : p = pat
    · rw [if_pos h]
      exact List.sublist_cons_self p rest
    · rw [if_neg h]
      exact ih.cons₂ p

theorem filterMap_removeFirstEq {α : Type} (f : GoStr → Option α) (pat : GoStr)
    (hf : f pat = none) :
    ∀ l : List GoStr, (removeFirstEq pat l).filterMap f = l.filterMap f := by
  intro l
  induction l with
  | nil => rfl
  | cons p rest ih =>
    rw [removeFirstEq]
    by_cases h : p = pat
    · rw [if_pos h, h, List.filterMap_cons_none hf]
    · rw [if_neg h, List.filterMap_cons, List.filterMap_cons, ih]

theorem phNames_cons_none (pc : GoStr) (rest : List GoStr) (h : parsePh pc = none) :
    phNames (pc :: rest) = phNames rest := by
  simp only [phNames, List.filterMap_cons, h, Option.map_none']

theorem phNames_cons_some (pc : GoStr) (rest : List GoStr) (n : GoStr) (o : Bool)
    (h : parsePh pc = some (n, o)) :
    phNames (pc :: rest) = n :: phNames rest := by
  simp only [phNames, List.filterMap_cons, h, Option.map_some']

theorem mem_phNames_of_parse (pc : GoStr) (Q : List GoStr) (n : GoStr) (o : Bool)
    (hm : pc ∈ Q) (h : parsePh pc = some (n, o)) : n ∈ phNames Q := by
  rw [phNames, List.mem_filterMap]
  exact ⟨pc, hm, by rw [h]; rfl⟩

theorem parse_of_mem_phNames (Q : List GoStr) (n : GoStr) (h : n ∈ phNames Q) :
    ∃ pc ∈ Q, ∃ o, parsePh pc = some (n, o) := by
  rw [phNames, List.mem_filterMap] at h
  obtain ⟨pc, hm, hp⟩ := h
  cases hq : parsePh pc with
  | none => rw [hq] at hp; exact absurd hp (by simp)
  | some v =>
    rw [hq] at hp
    refine ⟨pc, hm, v.2, ?_⟩
    rw [hq]
    have hv : v.1 = n := by simpa using hp
    rw [← hv]

theorem replacePc_wf (p : GoStr) (o : Bool) (gv : GoStr) (hgv : braceFreeB gv = true)
    (pc : GoStr) (hpc : SegWellFormed pc) : SegWellFormed (replacePc p o gv pc) := by
  rw [replacePc]
  by_cases h : pc = phSeg p o
  · rw [if_pos h]
    exact Or.inl hgv
  · rw [if_neg h]
    exact hpc

theorem replace2_cases (p : GoStr) (gv : GoStr) (pc : GoStr) :
    replacePc p true gv (replacePc p false gv pc) = pc ∨
      replacePc p true gv (replacePc p false gv pc) = gv := by
  rw [replacePc, replacePc]
  by_cases h1 : pc = phSeg p false
  · rw [if_pos h1, ite_self]
    exact Or.inr rfl
  · rw [if_neg h1]
    by_cases h2 : pc = phSeg p true
    · rw [if_pos h2]
      exact Or.inr rfl
    · rw [if_neg h2]
      exact Or.inl rfl

theorem resolveOrDrop_replace2 (merged : AList) (p : GoStr) (hp : cleanName p = true)
    (v : GoVal) (hl : lookupA merged p = some v)
    (hgv : braceFreeB (goFormat v) = true) (pc : GoStr) (hwf : SegWellFormed pc) :
    resolveOrDrop merged (replacePc p true (goFormat v) (replacePc p false (goFormat v) pc))
      = resolveOrDrop merged pc := by
  rcases hwf with hbf | ⟨m, o2, rfl, hm⟩
  · rw [replacePc, replacePc, if_neg (braceFree_ne_phSeg pc hbf p false),
      if_neg (braceFree_ne_phSeg pc hbf p true)]
  · by_cases hmp : m = p
    · subst hmp
      cases o2 with
      | false =>
        rw [replacePc, replacePc, if_pos (rfl : (phSeg m false : GoStr) = phSeg m false),
          ite_self]
        simp only [resolveOrDrop, parsePh_braceFree _ hgv, parsePh_phSeg m false hm, hl]
      | true =>
        rw [replacePc, replacePc,
          if_neg (fun hc => Bool.noConfusion (phSeg_inj m m true false hm hm hc).2),
          if_pos (rfl : (phSeg m true : GoStr) = phSeg m true)]
        simp only [resolveOrDrop, parsePh_braceFree _ hgv, parsePh_phSeg m true hm, hl]
    · rw [replacePc, replacePc, if_neg (fun hc => hmp (phSeg_inj m p o2 false hm hp hc).1),
        if_neg (fun hc => hmp (phSeg_inj m p o2 true hm hp hc).1)]

theorem phNames_replace2 (p : GoStr) (hp : cleanName p = true) (gv : GoStr)
    (hgv : braceFreeB gv = true) :
    ∀ Q : List GoStr, (∀ pc ∈ Q, SegWellFormed pc) →
      phNames (Q.map (fun pc => replacePc p true gv (replacePc p false gv pc)))
        = (phNames Q).filter (fun nm => !(nm == p)) := by
  intro Q
  induction Q with
  | nil => intro _; rfl
  | cons pc rest ih =>
    intro hwf
    have hrest := ih (fun x hx => hwf x (List.mem_cons_of_mem _ hx))
    rcases hwf pc (List.mem_cons_self _ _) with hbf | ⟨m, o2, rfl, hm⟩
    · have h1 : replacePc p true gv (replacePc p false gv pc) = pc := by
        rw [replacePc, replacePc, if_neg (braceFree_ne_phSeg pc hbf p false),
          if_neg (braceFree_ne_phSeg pc hbf p true)]
      rw [List.map_cons, h1, phNames_cons_none pc _ (parsePh_braceFree pc hbf),
        phNames_cons_none pc _ (parsePh_braceFree pc hbf), hrest]
    · by_cases hmp : m = p
      · subst hmp
        have h1 : replacePc m true gv (replacePc m false gv (phSeg m o2)) = gv := by
          cases o2 with
          | false =>
            rw [replacePc, replacePc, if_pos (rfl : (phSeg m false : GoStr) = phSeg m false),
              ite_self]
          | true =>
            rw [replacePc, replacePc,
              if_neg (fun hc => Bool.noConfusion (phSeg_inj m m true false hm hm hc).2),
              if_pos (rfl : (phSeg m true : GoStr) = phSeg m true)]
        rw [List.map_cons, h1, phNames_cons_none gv _ (parsePh_braceFree gv hgv),
          phNames_cons_some _ _ m o2 (parsePh_phSeg m o2 hm), List.filter_cons,
          if_neg (by simp), hrest]
      · have h1 : replacePc p true gv (replacePc p false gv (phSeg m o2)) = phSeg m o2 := by
          rw [replacePc, replacePc, if_neg (fun hc => hmp (phSeg_inj m p o2 false hm hp hc).1),
            if_neg (fun hc => hmp (phSeg_inj m p o2 true hm hp hc).1)]
        rw [List.map_cons, h1, phNames_cons_some _ _ m o2 (parsePh_phSeg m o2 hm),
          phNames_cons_some _ _ m o2 (parsePh_phSeg m o2 hm), List.filter_cons,
          if_pos (by simp [hmp]), hrest]

theorem not_mem_phNames_removeFirst (p : GoStr) (hp : cleanName p = true) :
    ∀ Q : List GoStr, (∀ pc ∈ Q, SegWellFormed pc) → (phNames Q).Nodup →
      (∀ pc ∈ Q, parsePh pc ≠ some (p, false)) →
      p ∉ phNames (removeFirstEq (phSeg p true) Q) := by
  intro Q
  induction Q with
  | nil => intro _ _ _; exact List.not_mem_nil p
  | cons pc rest ih =>
    intro hwf hnd hnf
    rw [removeFirstEq]
    by_cases h : pc = phSeg p true
    · rw [if_pos h]
      have hcons : phNames (pc :: rest) = p :: phNames rest :=
        phNames_cons_some pc rest p true (by rw [h]; exact parsePh_phSeg p true hp)
      rw [hcons] at hnd
      exact (List.nodup_cons.mp hnd).1
    · rw [if_neg h]
      cases hparse : parsePh pc with
      | none =>
        rw [phNames_cons_none pc _ hparse]
        rw [phNames_cons_none pc _ hparse] at hnd
        exact ih (fun x hx => hwf x (List.mem_cons_of_mem _ hx)) hnd
          (fun x hx => hnf x (List.mem_cons_of_mem _ hx))
      | some v =>
        obtain ⟨n0, o0⟩ := v
        have hn0 : n0 ≠ p := by
          intro he
          subst he
          cases o0 with
          | false => exact hnf pc (List.mem_cons_self _ _) hparse
          | true =>
            exact h (parsePh_of_wf pc (hwf pc (List.mem_cons_self _ _)) n0 true hparse).1
        rw [phNames_cons_some pc _ n0 o0 hparse]
        rw [phNames_cons_some pc _ n0 o0 hparse] at hnd
        intro hmem
        rcases List.mem_cons.mp hmem with he | hmem2
        · exact hn0 he.symm
        · exact ih (fun x hx => hwf x (List.mem_cons_of_mem _ hx))
            (List.nodup_cons.mp hnd).2
            (fun x hx => hnf x (List.mem_cons_of_mem _ hx)) hmem2

theorem mem_phNames_removeFirst (pat nm : GoStr)
    (hpat : (parsePh pat).map Prod.fst ≠ some nm) :
    ∀ Q : List GoStr, nm ∈ phNames Q → nm ∈ phNames (removeFirstEq pat Q) := by
  intro Q
  induction Q with
  | nil => intro h; exact absurd h (List.not_mem_nil nm)
  | cons pc rest ih =>
    intro hmem
    rw [removeFirstEq]
    by_cases h : pc = pat
    · rw [if_pos h]
      cases hparse : parsePh pc with
      | none =>
        rw [phNames_cons_none pc _ hparse] at hmem
        exact hmem
      | some v =>
        obtain ⟨n0, o0⟩ := v
        rw [phNames_cons_some pc _ n0 o0 hparse] at hmem
        rcases List.mem_cons.mp hmem with he | hmem2
        · exfalso
          apply hpat
          rw [← h, hparse, ← he]
          rfl
        · exact hmem2
    · rw [if_neg h]
      cases hparse : parsePh pc with
      | none =>
        rw [phNames_cons_none pc _ hparse] at hmem
        rw [phNames_cons_none pc _ hparse]
        exact ih hmem
      | some v =>
        obtain ⟨n0, o0⟩ := v
        rw [phNames_cons_some pc _ n0 o0 hparse] at hmem
        rw [phNames_cons_some pc _ n0 o0 hparse]
        rcases List.mem_cons.mp hmem with he | hmem2
        · exact he ▸ List.mem_cons_self _ _
        · exact List.mem_cons_of_mem _ (ih hmem2)

theorem extractPathParams_eq_phNames (e : GoStr) :
    extractPathParams e = phNames (splitOnChar '/' e) := by
  rw [extractPathParams, phNames]
  apply filterMap_congr_mem
  intro pc _
  by_cases h : (hasPrefixL phOpen pc && hasSuffixL phClose pc) = true
  · rw [if_pos h]
    simp only [parsePh, h, if_true]
    by_cases h2 : hasSuffixL ['?'] (trimPrefixL phOpen (trimSuffixL phClose pc)) = true
    · simp only [h2, if_true, Option.map_some']
    · have h2f : hasSuffixL ['?'] (trimPrefixL phOpen (trimSuffixL phClose pc)) = false := by
        cases hq : hasSuffixL ['?'] (trimPrefixL phOpen (trimSuffixL phClose pc)) with
        | false => rfl
        | true => exact absurd hq h2
      simp only [h2f, Bool.false_eq_true, if_false, Option.map_some']
      rw [trimSuffixL, if_neg h2]
  · have hb : (hasPrefixL phOpen pc && hasSuffixL phClose pc) = false := by
      cases hq : (hasPrefixL phOpen pc && hasSuffixL phClose pc) with
      | false => rfl
      | true => exact absurd hq h
    rw [if_neg h]
    simp only [parsePh, hb, Bool.false_eq_true, if_false, Option.map_none']

/-! ## The path-parameter loop, resolved over well-formed endpoints -/

theorem substPathParams_resolved (merged : AList) (optionals : List GoStr) :
    ∀ (params : List GoStr) (Q : List GoStr),
      params.Nodup →
      (∀ pc ∈ Q, SegWellFormed pc) →
      (∀ pc ∈ Q, '/' ∉ pc) →
      (phNames Q).Nodup →
      (∀ nm ∈ phNames Q, nm ∈ params) →
      (∀ p ∈ params, cleanName p = true) →
      (∀ p ∈ params, ∀ v, lookupA merged p = some v →
        braceFreeB (goFormat v) = true ∧ '/' ∉ goFormat v) →
      (∀ p ∈ params, lookupA merged p = none →
        (∀ pc ∈ Q, parsePh pc ≠ some (p, false)) ∧
        (p ∉ phNames Q → optionals.contains p = true)) →
      substPathParams merged optionals params (joinSep '/' Q)
        = .ok (joinSep '/' (Q.filterMap (resolveOrDrop merged))) := by
  intro params
  induction params with
  | nil =>
    intro Q _ _ _ _ hcover _ _ _
    have hnone : ∀ pc ∈ Q, parsePh pc = none := by
      intro pc hpc
      cases hq : parsePh pc with
      | none => rfl
      | some v =>
        exact absurd (hcover v.1 (mem_phNames_of_parse pc Q v.1 v.2 hpc (by rw [hq])))
          (List.not_mem_nil v.1)
    have hid : Q.filterMap (resolveOrDrop merged) = Q := by
      apply filterMap_eq_self_of
      intro pc hpc
      simp only [resolveOrDrop, hnone pc hpc]
    rw [hid]
    rfl
  | cons p rest ih =>
    intro Q hnd hwf hsl hqnd hcover hclean hvals habs
    have hpclean : cleanName p = true := hclean p (List.mem_cons_self _ _)
    cases hl : lookupA merged p with
    | some v =>
      obtain ⟨hgv, hslv⟩ := hvals p (List.mem_cons_self _ _) v hl
      have hwf1 : ∀ pc ∈ Q.map (replacePc p false (goFormat v)), SegWellFormed pc := by
        intro pc hpc
        obtain ⟨pc0, hpc0, rfl⟩ := List.mem_map.mp hpc
        exact replacePc_wf p false (goFormat v) hgv pc0 (hwf pc0 hpc0)
      have hcomp : replacePc p true (goFormat v) ∘ replacePc p false (goFormat v)
          = fun pc => replacePc p true (goFormat v) (replacePc p false (goFormat v) pc) := rfl
      have hstep : substPathParams merged optionals (p :: rest) (joinSep '/' Q)
          = substPathParams merged optionals rest
              (joinSep '/' (Q.map (fun pc => replacePc p true (goFormat v)
                (replacePc p false (goFormat v) pc)))) := by
        simp only [substPathParams, hl]
        rw [replaceAll_join p false (goFormat v) hpclean Q hwf,
          replaceAll_join p true (goFormat v) hpclean _ hwf1, List.map_map, hcomp]
      have hwf2 : ∀ pc ∈ Q.map (fun pc => replacePc p true (goFormat v)
          (replacePc p false (goFormat v) pc)), SegWellFormed pc := by
        intro pc hpc
        obtain ⟨pc0, hpc0, rfl⟩ := List.mem_map.mp hpc
        exact replacePc_wf p true _ hgv _ (replacePc_wf p false _ hgv pc0 (hwf pc0 hpc0))
      have hsl2 : ∀ pc ∈ Q.map (fun pc => replacePc p true (goFormat v)
          (replacePc p false (goFormat v) pc)), '/' ∉ pc := by
        intro pc hpc
        obtain ⟨pc0, hpc0, rfl⟩ := List.mem_map.mp hpc
        rcases replace2_cases p (goFormat v) pc0 with he | he
        · rw [he]; exact hsl pc0 hpc0
        · rw [he]; exact hslv
      have hnames2 : phNames (Q.map (fun pc => replacePc p true (goFormat v)
          (replacePc p false (goFormat v) pc)))
          = (phNames Q).filter (fun nm => !(nm == p)) :=
        phNames_replace2 p hpclean (goFormat v) hgv Q hwf
      have hqnd2 : (phNames (Q.map (fun pc => replacePc p true (goFormat v)
          (replacePc p false (goFormat v) pc)))).Nodup := by
        rw [hnames2]
        exact hqnd.filter _
      have hcover2 : ∀ nm ∈ phNames (Q.map (fun pc => replacePc p true (goFormat v)
          (replacePc p false (goFormat v) pc))), nm ∈ rest := by
        intro nm hnm
        rw [hnames2, List.mem_filter] at hnm
        rcases List.mem_cons.mp (hcover nm hnm.1) with he | hr
        · exfalso
          have hx := hnm.2
          rw [he] at hx
          simp at hx
        · exact hr
      have habs2 : ∀ p' ∈ rest, lookupA merged p' = none →
          (∀ pc ∈ Q.map (fun pc => replacePc p true (goFormat v)
            (replacePc p false (goFormat v) pc)), parsePh pc ≠ some (p', false)) ∧
          (p' ∉ phNames (Q.map (fun pc => replacePc p true (goFormat v)
            (replacePc p false (goFormat v) pc))) → optionals.contains p' = true) := by
        intro p' hp' hnone
        obtain ⟨hnf', hopt'⟩ := habs p' (List.mem_cons_of_mem _ hp') hnone
        constructor
        · intro pc hpc hpar
          obtain ⟨pc0, hpc0, rfl⟩ := List.mem_map.mp hpc
          rcases replace2_cases p (goFormat v) pc0 with he | he
          · rw [he] at hpar
            exact hnf' pc0 hpc0 hpar
          · rw [he, parsePh_braceFree _ hgv] at hpar
            exact Option.noConfusion hpar
        · intro hnm
          apply hopt'
          intro hmemQ
          apply hnm
          rw [hnames2, List.mem_filter]
          refine ⟨hmemQ, ?_⟩
          have hne : p' ≠ p := fun he => (List.nodup_cons.mp hnd).1 (he ▸ hp')
          simp [hne]
      have hfm : (Q.map (fun pc => replacePc p true (goFormat v)
          (replacePc p false (goFormat v) pc))).filterMap (resolveOrDrop merged)
          = Q.filterMap (resolveOrDrop merged) := by
        rw [List.filterMap_map]
        apply filterMap_congr_mem
        intro pc hpc
        show resolveOrDrop merged (replacePc p true (goFormat v)
          (replacePc p false (goFormat v) pc)) = resolveOrDrop merged pc
        exact resolveOrDrop_replace2 merged p hpclean v hl hgv pc (hwf pc hpc)
      rw [hstep, ← hfm]
      exact ih _ (List.nodup_cons.mp hnd).2 hwf2 hsl2 hqnd2 hcover2
        (fun q hq => hclean q (List.mem_cons_of_mem _ hq))
        (fun q hq => hvals q (List.mem_cons_of_mem _ hq)) habs2
    | none =>
      obtain ⟨hnf, hopt⟩ := habs p (List.mem_cons_self _ _) hl
      by_cases hmem : p ∈ phNames Q
      · obtain ⟨pc0, hpc0, o0, hparse0⟩ := parse_of_mem_phNames Q p hmem
        have ho0 : o0 = true := by
          cases o0 with
          | true => rfl
          | false => exact absurd hparse0 (hnf pc0 hpc0)
        subst ho0
        have hpc0eq : pc0 = phSeg p true :=
          (parsePh_of_wf pc0 (hwf pc0 hpc0) p true hparse0).1
        have hcs : containsSubL (phSeg p true) (joinSep '/' Q) = true := by
          have hx := containsSubL_join_of_mem '/' pc0 Q hpc0
          rw [hpc0eq] at hx
          exact hx
        have hQne : Q ≠ [] := List.ne_nil_of_mem hpc0
        have hstep : substPathParams merged optionals (p :: rest) (joinSep '/' Q)
            = substPathParams merged optionals rest
                (joinSep '/' (removeFirstEq (phSeg p true) Q)) := by
          simp only [substPathParams, hl]
          rw [if_pos hcs, splitOnChar_joinSep '/' Q hQne hsl]
        have hdrop : resolveOrDrop merged (phSeg p true) = none := by
          simp only [resolveOrDrop, parsePh_phSeg p true hpclean, hl]
        have hfm : (removeFirstEq (phSeg p true) Q).filterMap (resolveOrDrop merged)
            = Q.filterMap (resolveOrDrop merged) :=
          filterMap_removeFirstEq _ _ hdrop Q
        have hsub := removeFirstEq_sublist (phSeg p true) Q
        have hnotp : p ∉ phNames (removeFirstEq (phSeg p true) Q) :=
          not_mem_phNames_removeFirst p hpclean Q hwf hqnd hnf
        rw [hstep, ← hfm]
        apply ih
        · exact (List.nodup_cons.mp hnd).2
        · exact fun pc hpc => hwf pc (hsub.subset hpc)
        · exact fun pc hpc => hsl pc (hsub.subset hpc)
        · exact (hsub.filterMap (fun pc => (parsePh pc).map Prod.fst)).nodup hqnd
        · intro nm hnm
          rcases List.mem_cons.mp
              (hcover nm ((hsub.filterMap (fun pc => (parsePh pc).map Prod.fst)).subset hnm)) with
            he | hr
          · exact absurd (he ▸ hnm) hnotp
          · exact hr
        · exact fun q hq => hclean q (List.mem_cons_of_mem _ hq)
        · exact fun q hq => hvals q (List.mem_cons_of_mem _ hq)
        · intro p' hp' hnone
          obtain ⟨hnf', hopt'⟩ := habs p' (List.mem_cons_of_mem _ hp') hnone
          refine ⟨fun pc hpc => hnf' pc (hsub.subset hpc), ?_⟩
          intro hnm
          apply hopt'
          intro hmemQ
          apply hnm
          apply mem_phNames_removeFirst (phSeg p true) p' ?_ Q hmemQ
          rw [parsePh_phSeg p true hpclean]
          intro hc
          have hpp : p = p' := by simpa using hc
          exact (List.nodup_cons.mp hnd).1 (hpp ▸ hp')
      · have hq1 : ∀ pc ∈ Q, pc ≠ phSeg p true := by
          intro pc hpc he
          exact hmem (mem_phNames_of_parse pc Q p true hpc
            (by rw [he]; exact parsePh_phSeg p true hpclean))
        have hcs : containsSubL (phSeg p true) (joinSep '/' Q) = false :=
          containsSubL_phSeg_join_false p true hpclean Q hwf hq1
        have hco : optionals.contains p = true := hopt hmem
        have hstep : substPathParams merged optionals (p :: rest) (joinSep '/' Q)
            = substPathParams merged optionals rest (joinSep '/' Q) := by
          simp only [substPathParams, hl]
          rw [if_neg (by rw [hcs]; exact (by decide : ¬(false = true))), if_pos hco]
        rw [hstep]
        apply ih
        · exact (List.nodup_cons.mp hnd).2
        · exact hwf
        · exact hsl
        · exact hqnd
        · intro nm hnm
          rcases List.mem_cons.mp (hcover nm hnm) with he | hr
          · exact absurd (he ▸ hnm) hmem
          · exact hr
        · exact fun q hq => hclean q (List.mem_cons_of_mem _ hq)
        · exact fun q hq => hvals q (List.mem_cons_of_mem _ hq)
        · exact fun p' hp' hnone => habs p' (List.mem_cons_of_mem _ hp') hnone

/-! ## Template-value processing succeeds on valid trees -/

mutual
theorem templateValueOK_processes (merged : AList) (optionals : List GoStr) :
    (v : GoVal) → templateValueOK merged v = true →
      ∃ pv, processTemplateValue merged optionals v = some pv
  | .vnil, _ => ⟨.vnil, rfl⟩
  | .vbool b, _ => ⟨.vbool b, rfl⟩
  | .vint i, _ => ⟨.vint i, rfl⟩
  | .vstr s, h => by
    by_cases hc : (hasPrefixL phOpen s && hasSuffixL phClose s) = true
    · by_cases hq : hasSuffixL ['?'] (trimPrefixL phOpen (trimSuffixL phClose s)) = true
      · have hparse : parsePh s
            = some (trimSuffixL ['?'] (trimPrefixL phOpen (trimSuffixL phClose s)), true) := by
          simp only [parsePh, hc, if_true, hq]
        simp only [templateValueOK, hparse] at h
        cases hlk : lookupA merged
            (trimSuffixL ['?'] (trimPrefixL phOpen (trimSuffixL phClose s))) with
        | none =>
          rw [hlk] at h
          exact absurd h (by decide)
        | some pv =>
          rw [hlk, Bool.and_eq_true, Bool.not_eq_true', Bool.not_eq_true'] at h
          refine ⟨pv, ?_⟩
          simp only [processTemplateValue, hc, if_true, hq, hlk, h.1, h.2, Bool.or_self,
            Bool.false_and, Bool.false_eq_true, if_false]
      · have hqf : hasSuffixL ['?'] (trimPrefixL phOpen (trimSuffixL phClose s)) = false := by
          cases hx : hasSuffixL ['?'] (trimPrefixL phOpen (trimSuffixL phClose s)) with
          | false => rfl
          | true => exact absurd hx hq
        have hparse : parsePh s
            = some (trimPrefixL phOpen (trimSuffixL phClose s), false) := by
          simp only [parsePh, hc, if_true, hqf, Bool.false_eq_true, if_false]
        simp only [templateValueOK, hparse] at h
        cases hlk : lookupA merged (trimPrefixL phOpen (trimSuffixL phClose s)) with
        | none =>
          rw [hlk] at h
          exact absurd h (by decide)
        | some pv =>
          rw [hlk, Bool.and_eq_true, Bool.not_eq_true', Bool.not_eq_true'] at h
          refine ⟨pv, ?_⟩
          simp only [processTemplateValue, hc, if_true, hqf, hlk, h.1, h.2, Bool.or_self,
            Bool.false_and, Bool.false_eq_true, if_false]
    · have hcf : (hasPrefixL phOpen s && hasSuffixL phClose s) = false := by
        cases hx : (hasPrefixL phOpen s && hasSuffixL phClose s) with
        | false => rfl
        | true => exact absurd hx hc
      exact ⟨.vstr s, by simp only [processTemplateValue, hcf, Bool.false_eq_true, if_false]⟩
  | .vobj fields, h => by
    simp only [templateValueOK, Bool.and_eq_true] at h
    have hlen := templateFieldsOK_length merged optionals fields h.2
    cases hp : processTemplateFields merged optionals fields with
    | nil =>
      exfalso
      rw [hp, List.length_nil] at hlen
      cases fields with
      | nil => simp at h
      | cons a l =>
        rw [List.length_cons] at hlen
        omega
    | cons a l => exact ⟨.vobj (a :: l), by simp only [processTemplateValue, hp]⟩
  | .varr xs, h => by
    simp only [templateValueOK, Bool.and_eq_true] at h
    have hlen := templateItemsOK_length merged optionals xs h.2
    cases hp : processTemplateItems merged optionals xs with
    | nil =>
      exfalso
      rw [hp, List.length_nil] at hlen
      cases xs with
      | nil => simp at h
      | cons a l =>
        rw [List.length_cons] at hlen
        omega
    | cons a l => exact ⟨.varr (a :: l), by simp only [processTemplateValue, hp]⟩

theorem templateFieldsOK_length (merged : AList) (optionals : List GoStr) :
    (fields : List (GoStr × GoVal)) → templateFieldsOK merged fields = true →
      (processTemplateFields merged optionals fields).length = fields.length
  | [], _ => rfl
  | (k, v) :: rest, h => by
    rw [templateFieldsOK, Bool.and_eq_true] at h
    obtain ⟨pv, hpv⟩ := templateValueOK_processes merged optionals v h.1
    simp only [processTemplateFields, hpv]
    rw [List.length_cons, List.length_cons,
      templateFieldsOK_length merged optionals rest h.2]

theorem templateItemsOK_length (merged : AList) (optionals : List GoStr) :
    (xs : List GoVal) → templateItemsOK merged xs = true →
      (processTemplateItems merged optionals xs).length = xs.length
  | [], _ => rfl
  | v :: rest, h => by
    rw [templateItemsOK, Bool.and_eq_true] at h
    obtain ⟨pv, hpv⟩ := templateValueOK_processes merged optionals v h.1
    simp only [processTemplateItems, hpv]
    rw [List.length_cons, List.length_cons,
      templateItemsOK_length merged optionals rest h.2]
end

theorem processBodyGo_ok (merged : AList) (optionals : List GoStr) :
    ∀ body : List (GoStr × GoVal), templateFieldsOK merged body = true →
      ∃ l, processBodyGo merged optionals body = .ok l := by
  intro body
  induction body with
  | nil => intro _; exact ⟨[], rfl⟩
  | cons kv rest ih =>
    intro h
    obtain ⟨k, v⟩ := kv
    rw [templateFieldsOK, Bool.and_eq_true] at h
    obtain ⟨pv, hpv⟩ := templateValueOK_processes merged optionals v h.1
    obtain ⟨l, hl⟩ := ih h.2
    refine ⟨(k, pv) :: l, ?_⟩
    simp only [processBodyGo, hpv, hl, Except.map]

theorem processQueryGo_ok (merged : AList) (optionals : List GoStr) :
    ∀ query : List (GoStr × GoVal), templateFieldsOK merged query = true →
      ∃ l, processQueryGo merged optionals query = .ok l := by
  intro query
  induction query with
  | nil => intro _; exact ⟨[], rfl⟩
  | cons kv rest ih =>
    intro h
    obtain ⟨k, v⟩ := kv
    rw [templateFieldsOK, Bool.and_eq_true] at h
    obtain ⟨pv, hpv⟩ := templateValueOK_processes merged optionals v h.1
    obtain ⟨l, hl⟩ := ih h.2
    refine ⟨(k, goFormat pv) :: l, ?_⟩
    simp only [processQueryGo, hpv, hl, Except.map]

/-- Witness for C3 at a concrete two-step parallel workflow. -/
theorem claim_C3_witness :
    ((registerWorkflow []
      ⟨"w".data, [],
        [⟨"a".data, [], "svc".data, "x".data, [], [], [], none, [], [], 0, 0, [], []⟩,
         ⟨"b".data, [], "svc".data, "y".data, [], [], [], none, ["a".data],
           [], 0, 0, [], []⟩], [], []⟩).2 = none) ∧
    getWorkflow (registerWorkflow []
      ⟨"w".data, [],
        [⟨"a".data, [], "svc".data, "x".data, [], [], [], none, [], [], 0, 0, [], []⟩,
         ⟨"b".data, [], "svc".data, "y".data, [], [], [], none, ["a".data],
           [], 0, 0, [], []⟩], [], []⟩).1 "w".data =
      some ⟨"w".data, [],
        [⟨"a".data, [], "svc".data, "x".data, [], [], [], none, [], [], 0, 0, [], []⟩,
         ⟨"b".data, [], "svc".data, "y".data, [], [], [], none, ["a".data],
           [], 0, 0, [], []⟩], [], []⟩ := by
  have h := claim_C3_registration_guards []
    ⟨"w".data, [],
      [⟨"a".data, [], "svc".data, "x".data, [], [], [], none, [], [], 0, 0, [], []⟩,
       ⟨"b".data, [], "svc".data, "y".data, [], [], [], none, ["a".data],
         [], 0, 0, [], []⟩], [], []⟩
  exact ⟨rfl, h.2 rfl⟩

/-- **C1 (amended).**  For a route template whose endpoint splits into
well-formed pieces (brace-free literals or whole-segment placeholders with
clean names), with pairwise distinct placeholder names, the path list
derived from the endpoint as `AddTemplate` derives it, a brace-free base
URL, a merged value for every path name whose `%v` rendering is brace- and
slash-free, and body/query trees all of whose placeholders resolve to
non-nil non-empty values, `PrepareRequest` succeeds, the prepared URL
contains no placeholder delimiters, and every path name's value string
occurs in the URL. -/
theorem claim_C1_placeholder_roundtrip
    (tmpl : RouteTemplate) (cfg : ApiConfig) (globalParams callParams : AList)
    (hwf : ∀ pc ∈ splitOnChar '/' tmpl.endpoint, SegWellFormed pc)
    (hnodup : (phNames (splitOnChar '/' tmpl.endpoint)).Nodup)
    (hparams : tmpl.pathParams = extractPathParams tmpl.endpoint)
    (hbase : '{' ∉ cfg.apiURL ∧ '}' ∉ cfg.apiURL)
    (hvals : ∀ nm ∈ tmpl.pathParams, ∃ v,
      lookupA (mergeParams cfg.defaultParams globalParams callParams) nm = some v ∧
      braceFreeB (goFormat v) = true ∧ '/' ∉ goFormat v)
    (hbody : templateFieldsOK (mergeParams cfg.defaultParams globalParams callParams)
      tmpl.body = true)
    (hquery : templateFieldsOK (mergeParams cfg.defaultParams globalParams callParams)
      tmpl.queryParams = true) :
    ∃ req : PreparedRequest,
      prepareRequest tmpl cfg globalParams callParams = .ok req ∧
      containsSubL phOpen req.url = false ∧
      containsSubL phClose req.url = false ∧
      (∀ nm ∈ tmpl.pathParams, ∀ v,
        lookupA (mergeParams cfg.defaultParams globalParams callParams) nm = some v →
        containsSubL (goFormat v) req.url = true) := by
  have hQsl : ∀ pc ∈ splitOnChar '/' tmpl.endpoint, '/' ∉ pc :=
    fun pc h => not_mem_of_mem_splitOnChar '/' tmpl.endpoint pc h
  have hpn : tmpl.pathParams = phNames (splitOnChar '/' tmpl.endpoint) := by
    rw [hparams, extractPathParams_eq_phNames]
  have hclean : ∀ p ∈ tmpl.pathParams, cleanName p = true := by
    intro p hp
    rw [hpn] at hp
    obtain ⟨pc, hpc, o, hparse⟩ := parse_of_mem_phNames _ p hp
    exact (parsePh_of_wf pc (hwf pc hpc) p o hparse).2
  have hvals2 : ∀ p ∈ tmpl.pathParams, ∀ v,
      lookupA (mergeParams cfg.defaultParams globalParams callParams) p = some v →
      braceFreeB (goFormat v) = true ∧ '/' ∉ goFormat v := by
    intro p hp v hv
    obtain ⟨v0, hv0, hbf0, hsl0⟩ := hvals p hp
    rw [hv0] at hv
    obtain rfl := Option.some.injEq .. ▸ hv.symm
    exact ⟨hbf0, hsl0⟩
  have habs : ∀ p ∈ tmpl.pathParams,
      lookupA (mergeParams cfg.defaultParams globalParams callParams) p = none →
      (∀ pc ∈ splitOnChar '/' tmpl.endpoint, parsePh pc ≠ some (p, false)) ∧
      (p ∉ phNames (splitOnChar '/' tmpl.endpoint) →
        tmpl.optionalParams.contains p = true) := by
    intro p hp hnone
    obtain ⟨v0, hv0, _, _⟩ := hvals p hp
    rw [hnone] at hv0
    exact absurd hv0 (Option.noConfusion)
  have hsub := substPathParams_resolved
    (mergeParams cfg.defaultParams globalParams callParams) tmpl.optionalParams
    tmpl.pathParams (splitOnChar '/' tmpl.endpoint)
    (by rw [hpn]; exact hnodup) hwf hQsl hnodup
    (fun nm hnm => by rw [hpn]; exact hnm) hclean hvals2 habs
  rw [joinSep_splitOnChar '/' tmpl.endpoint] at hsub
  obtain ⟨bl, hbl⟩ := processBodyGo_ok
    (mergeParams cfg.defaultParams globalParams callParams) tmpl.optionalParams tmpl.body hbody
  obtain ⟨ql, hql⟩ := processQueryGo_ok
    (mergeParams cfg.defaultParams globalParams callParams) tmpl.optionalParams
    tmpl.queryParams hquery
  have hRbf : ∀ r ∈ (splitOnChar '/' tmpl.endpoint).filterMap
      (resolveOrDrop (mergeParams cfg.defaultParams globalParams callParams)),
      braceFreeB r = true := by
    intro r hr
    obtain ⟨pc, hpc, hres⟩ := List.mem_filterMap.mp hr
    rcases hwf pc hpc with hbf | ⟨m, o2, rfl, hm⟩
    · simp only [resolveOrDrop, parsePh_braceFree pc hbf] at hres
      obtain rfl := Option.some.injEq .. ▸ hres
      exact hbf
    · simp only [resolveOrDrop, parsePh_phSeg m o2 hm] at hres
      cases hlk : lookupA (mergeParams cfg.defaultParams globalParams callParams) m with
      | none =>
        simp only [hlk] at hres
        exact Option.noConfusion hres
      | some v =>
        simp only [hlk] at hres
        obtain rfl := Option.some.injEq .. ▸ hres
        have hmem : m ∈ tmpl.pathParams := by
          rw [hpn]
          exact mem_phNames_of_parse _ _ m o2 hpc (parsePh_phSeg m o2 hm)
        exact (hvals2 m hmem v hlk).1
  have hurlb : '{' ∉ cfg.apiURL ++ joinSep '/'
      ((splitOnChar '/' tmpl.endpoint).filterMap
        (resolveOrDrop (mergeParams cfg.defaultParams globalParams callParams))) ∧
      '}' ∉ cfg.apiURL ++ joinSep '/'
      ((splitOnChar '/' tmpl.endpoint).filterMap
        (resolveOrDrop (mergeParams cfg.defaultParams globalParams callParams))) := by
    constructor
    · intro hmem
      rcases List.mem_append.mp hmem with h1 | h2
      · exact hbase.1 h1
      · rcases mem_joinSep '/' _ '{' h2 with he | ⟨l, hl, hml⟩
        · exact absurd he (by decide)
        · exact (braceFreeB_spec l (hRbf l hl) '{' hml).1 rfl
    · intro hmem
      rcases List.mem_append.mp hmem with h1 | h2
      · exact hbase.2 h1
      · rcases mem_joinSep '/' _ '}' h2 with he | ⟨l, hl, hml⟩
        · exact absurd he (by decide)
        · exact (braceFreeB_spec l (hRbf l hl) '}' hml).2 rfl
  refine ⟨⟨tmpl.method, cfg.apiURL ++ joinSep '/'
      ((splitOnChar '/' tmpl.endpoint).filterMap
        (resolveOrDrop (mergeParams cfg.defaultParams globalParams callParams))), ql, bl⟩,
    ?_, ?_, ?_, ?_⟩
  · simp only [prepareRequest, hsub, hbl, hql]
  · exact containsSubL_eq_false_of_head_not_mem '{' ['{'] _ hurlb.1
  · exact containsSubL_eq_false_of_head_not_mem '}' ['}'] _ hurlb.2
  · intro nm hnm v hv
    have hnm2 := hnm
    rw [hpn] at hnm2
    obtain ⟨pc, hpc, o, hparse⟩ := parse_of_mem_phNames _ nm hnm2
    have hres : resolveOrDrop (mergeParams cfg.defaultParams globalParams callParams) pc
        = some (goFormat v) := by
      simp only [resolveOrDrop, hparse, hv]
    have hmemR : goFormat v ∈ (splitOnChar '/' tmpl.endpoint).filterMap
        (resolveOrDrop (mergeParams cfg.defaultParams globalParams callParams)) :=
      List.mem_filterMap.mpr ⟨pc, hpc, hres⟩
    exact containsSubL_append_left _ cfg.apiURL _
      (containsSubL_join_of_mem '/' (goFormat v) _ hmemR)

/-- Counterexample to C1 as stated: every placeholder name of the template
has a non-nil, non-empty value, yet the prepared URL contains the sequence
`\x7b\x7b` because the value string itself carries brace characters. -/
theorem claim_C1_counterexample :
    prepareRequest
        ⟨"GET".data, "/a/\x7b\x7bx\x7d\x7d".data, ["x".data], [], [], []⟩
        ⟨[], [], []⟩ [] [("x".data, GoVal.vstr "\x7b\x7b".data)]
      = .ok ⟨"GET".data, "/a/\x7b\x7b".data, [], []⟩ ∧
    containsSubL phOpen "/a/\x7b\x7b".data = true :=
  ⟨rfl, by decide⟩

/-- Witness for the amended C1 at a concrete one-placeholder template. -/
theorem claim_C1_witness :
    ∃ req : PreparedRequest,
      prepareRequest
          ⟨"GET".data, "\x7b\x7bx\x7d\x7d".data, ["x".data], [], [], []⟩
          ⟨"u".data, [], []⟩ [] [("x".data, GoVal.vstr "1".data)]
        = .ok req ∧
      containsSubL phOpen req.url = false ∧
      containsSubL phClose req.url = false ∧
      (∀ nm ∈ ["x".data], ∀ v,
        lookupA (mergeParams [] [] [("x".data, GoVal.vstr "1".data)]) nm = some v →
        containsSubL (goFormat v) req.url = true) :=
  claim_C1_placeholder_roundtrip
    ⟨"GET".data, "\x7b\x7bx\x7d\x7d".data, ["x".data], [], [], []⟩
    ⟨"u".data, [], []⟩ [] [("x".data, GoVal.vstr "1".data)]
    (by
      intro pc hpc
      rw [show splitOnChar '/' "\x7b\x7bx\x7d\x7d".data = ["\x7b\x7bx\x7d\x7d".data] from rfl,
        List.mem_singleton] at hpc
      subst hpc
      exact Or.inr ⟨"x".data, false, by decide, by decide⟩)
    (by decide)
    (by decide)
    (by decide)
    (by
      intro nm hnm
      rw [List.mem_singleton] at hnm
      subst hnm
      exact ⟨GoVal.vstr "1".data, rfl, by decide, by decide⟩)
    rfl
    rfl

/-- **C7 (amended).**  A body or query entry whose template value is the
`?`-marked whole-string placeholder for `name` is dropped without error
whenever `name` is absent from the merged parameters or bound to nil or
the empty string.  An *absent-name* optional path placeholder's segment is
removed from the resolved endpoint (under the same well-formedness
conditions as C1); a path name that is *present* with a nil or empty value
is substituted, not removed — see the counterexample. -/
theorem claim_C7_optional_omission
    (merged : AList) (optionals : List GoStr) (k name : GoStr)
    (rest : List (GoStr × GoVal)) (hname : cleanName name = true)
    (habs : lookupA merged name = none ∨ lookupA merged name = some GoVal.vnil ∨
      lookupA merged name = some (GoVal.vstr [])) :
    (processBodyGo merged optionals ((k, GoVal.vstr (phSeg name true)) :: rest)
        = processBodyGo merged optionals rest) ∧
    (processQueryGo merged optionals ((k, GoVal.vstr (phSeg name true)) :: rest)
        = processQueryGo merged optionals rest) ∧
    (lookupA merged name = none →
      ∀ (params Q1 Q2 : List GoStr),
        params.Nodup →
        (∀ pc ∈ Q1 ++ phSeg name true :: Q2, SegWellFormed pc) →
        (∀ pc ∈ Q1 ++ phSeg name true :: Q2, '/' ∉ pc) →
        (phNames (Q1 ++ phSeg name true :: Q2)).Nodup →
        (∀ nm ∈ phNames (Q1 ++ phSeg name true :: Q2), nm ∈ params) →
        (∀ p ∈ params, cleanName p = true) →
        (∀ p ∈ params, ∀ v, lookupA merged p = some v →
          braceFreeB (goFormat v) = true ∧ '/' ∉ goFormat v) →
        (∀ p ∈ params, lookupA merged p = none →
          (∀ pc ∈ Q1 ++ phSeg name true :: Q2, parsePh pc ≠ some (p, false)) ∧
          (p ∉ phNames (Q1 ++ phSeg name true :: Q2) → optionals.contains p = true)) →
        substPathParams merged optionals params (joinSep '/' (Q1 ++ phSeg name true :: Q2))
          = .ok (joinSep '/' (Q1.filterMap (resolveOrDrop merged)
              ++ Q2.filterMap (resolveOrDrop merged)))) := by
  have hc : (hasPrefixL phOpen (phSeg name true) && hasSuffixL phClose (phSeg name true))
      = true := by
    rw [hasPrefixL_phOpen_phSeg, hasSuffixL_phClose_phSeg, Bool.and_self]
  have hinner : trimPrefixL phOpen (trimSuffixL phClose (phSeg name true))
      = name ++ ['?'] := by
    rw [phSeg_trim, if_pos rfl]
  have hskip : hasSuffixL ['?'] (trimPrefixL phOpen (trimSuffixL phClose (phSeg name true)))
      = true := by
    rw [hinner]
    exact hasSuffixL_append ['?'] name
  have hptv : processTemplateValue merged optionals (GoVal.vstr (phSeg name true)) = none := by
    simp only [processTemplateValue, hc, if_true, hinner, hasSuffixL_append, if_pos rfl,
      trimSuffixL_append]
    rcases habs with h | h | h <;>
      simp only [h, Bool.true_or, Bool.or_true, Bool.and_true,
        show (GoVal.vnil == GoVal.vstr []) = false from rfl,
        show (GoVal.vnil == GoVal.vnil) = true from rfl,
        show (GoVal.vstr [] == GoVal.vstr []) = true from rfl,
        Bool.false_or, if_true]
  refine ⟨?_, ?_, ?_⟩
  · simp only [processBodyGo, hptv, hskip, Bool.true_or, if_true]
  · simp only [processQueryGo, hptv, hskip, Bool.true_or, if_true]
  · intro hnone params Q1 Q2 hnd hwf hsl hqnd hcover hclean hvals habsp
    have hdrop : resolveOrDrop merged (phSeg name true) = none := by
      simp only [resolveOrDrop, parsePh_phSeg name true hname, hnone]
    rw [substPathParams_resolved merged optionals params (Q1 ++ phSeg name true :: Q2)
      hnd hwf hsl hqnd hcover hclean hvals habsp,
      List.filterMap_append, List.filterMap_cons_none hdrop]

/-- Counterexample to C7 as stated: the optional path placeholder's name
is *present* but bound to nil, yet the containing URL segment is not
removed — `PrepareRequest` renders it as `<nil>`. -/
theorem claim_C7_counterexample :
    prepareRequest
        ⟨"GET".data, "/a/\x7b\x7bp?\x7d\x7d".data, ["p".data], [], [], ["p".data]⟩
        ⟨[], [], []⟩ [] [("p".data, GoVal.vnil)]
      = .ok ⟨"GET".data, "/a/<nil>".data, [], []⟩ ∧
    splitOnChar '/' "/a/<nil>".data = ["".data, "a".data, "<nil>".data] :=
  ⟨rfl, by decide⟩

/-- Witness for the amended C7 with an absent optional name. -/
theorem claim_C7_witness :
    (processBodyGo [] [] (("k".data, GoVal.vstr (phSeg "q".data true)) :: [])
        = processBodyGo [] [] []) ∧
    (processQueryGo [] [] (("k".data, GoVal.vstr (phSeg "q".data true)) :: [])
        = processQueryGo [] [] []) ∧
    (lookupA [] "q".data = none →
      ∀ (params Q1 Q2 : List GoStr),
        params.Nodup →
        (∀ pc ∈ Q1 ++ phSeg "q".data true :: Q2, SegWellFormed pc) →
        (∀ pc ∈ Q1 ++ phSeg "q".data true :: Q2, '/' ∉ pc) →
        (phNames (Q1 ++ phSeg "q".data true :: Q2)).Nodup →
        (∀ nm ∈ phNames (Q1 ++ phSeg "q".data true :: Q2), nm ∈ params) →
        (∀ p ∈ params, cleanName p = true) →
        (∀ p ∈ params, ∀ v, lookupA [] p = some v →
          braceFreeB (goFormat v) = true ∧ '/' ∉ goFormat v) →
        (∀ p ∈ params, lookupA [] p = none →
          (∀ pc ∈ Q1 ++ phSeg "q".data true :: Q2, parsePh pc ≠ some (p, false)) ∧
          (p ∉ phNames (Q1 ++ phSeg "q".data true :: Q2) → List.contains [] p = true)) →
        substPathParams [] [] params (joinSep '/' (Q1 ++ phSeg "q".data true :: Q2))
          = .ok (joinSep '/' (Q1.filterMap (resolveOrDrop [])
              ++ Q2.filterMap (resolveOrDrop [])))) :=
  claim_C7_optional_omission [] [] "k".data "q".data [] (by decide) (Or.inl rfl)

end ModularApi
